import Mathlib

set_option maxRecDepth 100000

/-!
# Verification of the itf.go content-block parser and diff-correction engine

This file gives a shallow embedding, in Lean 4, of the core of the
`sokinpui/itf.go` repository: the diff-hunk corrector
(`internal/patcher/diff-fix.go`), the patch orchestration
(`internal/patcher/patcher.go`) and the plan builder
(`internal/parser/parser.go`), together with theorems settling the frozen
claims about them.

Modelling conventions:
* Go strings are Lean `String`s; where Go indexes bytes we only ever do so
  after checking a one-byte ASCII prefix, so dropping one `Char` is exact.
* Go `float64` similarity scores are modelled exactly as unnormalized
  fractions (`Score` below).  Every quantity involved is a ratio of small
  integers, so the exact-rational reading is the intended semantics of the
  floating-point code; all comparisons exercised here are far from the
  representable-rounding boundary.
* Filesystem access (`os.ReadFile`, `fs.PathResolver`, the external
  `patch` binary, `fs.GetFileActionsAndDirs`) is abstracted as an
  explicit environment of functions, so every definition stays executable.
-/

namespace Itf

/-! ## Go string primitives (package `strings`, `path/filepath`) -/

/-- `unicode.IsSpace` restricted to the code points Go lists explicitly
(the Latin-1 range); the inputs of interest only use ASCII whitespace. -/
def goIsSpace (c : Char) : Bool :=
  c = ' ' || c = '\t' || c = '\n' || c = '\x0B' || c = '\x0C' || c = '\r' ||
  c = '\u0085' || c = '\u00A0'

/-- The character class `\s` of Go's `regexp` package: `[\t\n\f\r ]`. -/
def goIsRegexSpace (c : Char) : Bool :=
  c = '\t' || c = '\n' || c = '\x0C' || c = '\r' || c = ' '

/-- `strings.HasPrefix s pre`. -/
def goStartsWith (s pre : String) : Bool :=
  pre.data.isPrefixOf s.data

/-- `strings.TrimSpace`: trim `unicode.IsSpace` characters on both ends. -/
def goTrimSpace (s : String) : String :=
  String.mk (((s.data.dropWhile goIsSpace).reverse.dropWhile goIsSpace).reverse)

/-- `strings.TrimRight s "\n"`. -/
def goTrimRightNL (s : String) : String :=
  String.mk ((s.data.reverse.dropWhile (fun c => c = '\n')).reverse)

/-- Character-level worker for `strings.Split s "\n"`. -/
def splitNLChars : List Char → List (List Char)
  | [] => [[]]
  | c :: rest =>
    if c = '\n' then [] :: splitNLChars rest
    else
      match splitNLChars rest with
      | [] => [[c]]
      | l :: ls => (c :: l) :: ls

/-- `strings.Split s "\n"`. -/
def goSplitNL (s : String) : List String :=
  (splitNLChars s.data).map String.mk

/-- Accumulator worker for `strings.Fields`. -/
def goFieldsAux : List Char → List Char → List (List Char)
  | [], cur => if cur.isEmpty then [] else [cur.reverse]
  | c :: rest, cur =>
    if goIsSpace c then
      if cur.isEmpty then goFieldsAux rest [] else cur.reverse :: goFieldsAux rest []
    else goFieldsAux rest (c :: cur)

/-- `strings.Fields`: split around runs of whitespace. -/
def goFields (s : String) : List String :=
  (goFieldsAux s.data []).map String.mk

/-- `strings.Join ws " "`. -/
def joinWithSpace (ws : List String) : String :=
  String.mk (List.intercalate [' '] (ws.map String.data))

/-- `strings.Contains path " "` (single-space pattern: some byte is a space). -/
def goContainsSpace (s : String) : Bool :=
  s.data.any (fun c => c = ' ')

/-- `filepath.Ext`: the suffix beginning at the final dot in the final
slash-separated element of the path, empty if there is no dot. -/
def goExt (path : String) : String :=
  let seg := path.data.reverse.takeWhile (fun c => c ≠ '/')
  if seg.contains '.' then
    String.mk ('.' :: (seg.takeWhile (fun c => c ≠ '.')).reverse)
  else ""

/-! ## Exact similarity scores

`diff-fix.go` computes `float64` similarity scores.  Every score is a
ratio of small integers; we model the arithmetic exactly with
unnormalized integer fractions whose denominators stay positive. -/

/-- An exact (unnormalized) rational score; models a Go `float64`. -/
structure Score where
  num : Int
  den : Int
deriving DecidableEq, Repr

/-- The rational value of a score. -/
def Score.toRat (s : Score) : ℚ := (s.num : ℚ) / (s.den : ℚ)

/-- Exact sum of two scores. -/
def Score.add (a b : Score) : Score :=
  ⟨a.num * b.den + b.num * a.den, a.den * b.den⟩

/-- Exact division of a score by a positive integer count. -/
def Score.divNat (a : Score) (k : Nat) : Score :=
  ⟨a.num, a.den * (k : Int)⟩

/-- `a < b` by cross-multiplication (valid when both denominators are
positive, which holds for every score built by the matcher). -/
def Score.blt (a b : Score) : Bool :=
  a.num * b.den < b.num * a.den

/-- `a ≤ b` by cross-multiplication (same proviso). -/
def Score.ble (a b : Score) : Bool :=
  a.num * b.den ≤ b.num * a.den

/-! ## `diff-fix.go`: Levenshtein distance and line similarity -/

/-- Inner-cell worker for one row of the dynamic-programming matrix of
`levenshteinDistance`: `prev` walks the previous row, `left` is the value
just computed in the current row. -/
def levRowAux (x : Char) : List Char → List Nat → Nat → List Nat
  | y :: ys, p0 :: p1 :: ps, left =>
    let cost := if x = y then 0 else 1
    let v := Nat.min (Nat.min (p1 + 1) (left + 1)) (p0 + cost)
    v :: levRowAux x ys (p1 :: ps) v
  | _, _, _ => []

/-- One row step of the matrix: row `i` starts with `i = prev.head + 1`. -/
def levRowStep (x : Char) (ys : List Char) (prev : List Nat) : List Nat :=
  let first := prev.headD 0 + 1
  first :: levRowAux x ys prev first

/-- `levenshteinDistance` of `diff-fix.go`, computed row by row exactly as
the Go dynamic-programming matrix (over runes, i.e. `Char`s). -/
def levenshteinDistance (a b : List Char) : Nat :=
  if a.isEmpty then b.length
  else if b.isEmpty then a.length
  else ((a.foldl (fun row x => levRowStep x b row) (List.range (b.length + 1))).getLastD 0)

/-- `lineSimilarity` of `diff-fix.go`: `1 - distance / max(lenA, lenB)`,
and `1` when both strings are empty; represented exactly as
`(max - distance) / max`. -/
def lineSimilarity (a b : String) : Score :=
  let distance := levenshteinDistance a.data b.data
  let lenA := a.data.length
  let lenB := b.data.length
  if lenA = 0 && lenB = 0 then ⟨1, 1⟩
  else ⟨(Nat.max lenA lenB : Int) - (distance : Int), (Nat.max lenA lenB : Int)⟩

/-- `normalizeLineForMatching`: trim and collapse internal whitespace,
i.e. `strings.Join (strings.Fields line) " "`. -/
def normalizeLineForMatching (line : String) : String :=
  joinWithSpace (goFields line)

/-- `similarityThreshold = 0.8` of `diff-fix.go`. -/
def similarityThreshold : Score := ⟨8, 10⟩

/-! ## `diff-fix.go`: `matchBlock` -/

/-- The filtered source of `matchBlock`: normalized non-blank source lines
paired with their true 1-based line numbers (`filteredSource` zipped with
`originalLineNumbers` in the Go code); `i` is the 0-based index of the
head of the remaining list. -/
def normalizedNonBlankAux : List String → Int → List (String × Int)
  | [], _ => []
  | line :: rest, i =>
    let n := normalizeLineForMatching line
    if n ≠ "" then (n, i + 1) :: normalizedNonBlankAux rest (i + 1)
    else normalizedNonBlankAux rest (i + 1)

/-- Filtered source with true line numbers, starting at index 0. -/
def normalizedNonBlank (source : List String) : List (String × Int) :=
  normalizedNonBlankAux source 0

/-- Total similarity of one window (the inner `j` loop of `matchBlock`):
sum of `lineSimilarity sourceLine blockLine` over the window. -/
def windowTotal (window nb : List String) : Score :=
  (window.zip nb).foldl (fun acc p => acc.add (lineSimilarity p.1 p.2)) ⟨0, 1⟩

/-- `avgScore` of the window starting at filtered index `i`. -/
def windowScore (fs nb : List String) (i : Nat) : Score :=
  (windowTotal ((fs.drop i).take nb.length) nb).divNat nb.length

/-- One step of the sliding-window loop of `matchBlock`: keep the best
`(bestScore, bestMatchLine)` pair, updating on a strictly greater average
score. -/
def matchStep (fs nb : List String) (nums : List Int) (best : Score × Int) (i : Nat) :
    Score × Int :=
  let avg := windowScore fs nb i
  if best.1.blt avg then (avg, nums.getD i (-1)) else best

/-- The sliding-window loop of `matchBlock`: fold `matchStep` over all
window start indices, beginning from `bestScore = -1.0`,
`bestMatchLine = -1`. -/
def bestWindow (fs nb : List String) (nums : List Int) : Score × Int :=
  (List.range (fs.length - nb.length + 1)).foldl (matchStep fs nb nums) (⟨-1, 1⟩, -1)

/-- `matchBlock` of `diff-fix.go`: fuzzy-locate `block` inside `source`,
returning the true 1-based line number of the best-scoring window when its
average similarity reaches the threshold, and `-1` otherwise.  (The Go
locals `normalizedBlock`, `filteredSource`, `originalLineNumbers` appear
here as the repeated map expressions.) -/
def matchBlock (source block : List String) : Int :=
  if block.isEmpty then -1
  else if ((normalizedNonBlank source).map Prod.fst).length <
      (block.map normalizeLineForMatching).length then -1
  else if similarityThreshold.ble
      (bestWindow ((normalizedNonBlank source).map Prod.fst)
        (block.map normalizeLineForMatching)
        ((normalizedNonBlank source).map Prod.snd)).1 then
    (bestWindow ((normalizedNonBlank source).map Prod.fst)
      (block.map normalizeLineForMatching)
      ((normalizedNonBlank source).map Prod.snd)).2
  else -1


/-! ## `diff-fix.go`: hunk parsing and correction -/

/-- `getTargetBlock`: the context (` `) and removal (`-`) lines of a hunk
with the prefix byte stripped, skipping lines blank after trimming. -/
def getTargetBlock : List String → List String
  | [] => []
  | line :: rest =>
    if goStartsWith line "-" || goStartsWith line " " then
      let content := String.mk (line.data.drop 1)
      if goTrimSpace content ≠ "" then content :: getTargetBlock rest
      else getTargetBlock rest
    else getTargetBlock rest

/-- `buildHunkHeader` (the Go version carries the trailing newline; in the
line-level model every emitted part is one line). -/
def buildHunkHeader (oldStart oldLines newStart newLines : Int) : String :=
  "@@ -" ++ Int.repr oldStart ++ "," ++ Int.repr oldLines ++
  " +" ++ Int.repr newStart ++ "," ++ Int.repr newLines ++ " @@"

/-- The loop of `parseDiffToHunks`: `current` is the hunk being
accumulated; `---`/`+++` lines are skipped, `@@` lines flush, and
`+`/`-`/space lines are collected. -/
def parseHunksAux : List String → List String → List (List String)
  | [], current => if current.isEmpty then [] else [current]
  | line :: rest, current =>
    if goStartsWith line "---" || goStartsWith line "+++" then
      parseHunksAux rest current
    else if goStartsWith line "@@" then
      if current.isEmpty then parseHunksAux rest []
      else current :: parseHunksAux rest []
    else if goStartsWith line "+" || goStartsWith line "-" || goStartsWith line " " then
      parseHunksAux rest (current ++ [line])
    else parseHunksAux rest current

/-- `parseDiffToHunks` of `diff-fix.go`. -/
def parseDiffToHunks (diffLines : List String) : List (List String) :=
  parseHunksAux diffLines []

/-- The four numbers of one rewritten `@@` header. -/
structure HunkHeader where
  oldStart : Int
  oldLines : Int
  newStart : Int
  newLines : Int
deriving DecidableEq, Repr

/-- `addCount` of the hunk-correction loop. -/
def hunkAddCount (hunk : List String) : Int :=
  ((hunk.filter (fun l => goStartsWith l "+")).length : Int)

/-- `removeCount` of the hunk-correction loop. -/
def hunkRemoveCount (hunk : List String) : Int :=
  ((hunk.filter (fun l => goStartsWith l "-")).length : Int)

/-- `contextCount` of the hunk-correction loop:
`len(hunk) - addCount - removeCount`. -/
def hunkContextCount (hunk : List String) : Int :=
  (hunk.length : Int) - hunkAddCount hunk - hunkRemoveCount hunk

/-- `oldLines = contextCount + removeCount` of the hunk-correction loop. -/
def hunkOldLines (hunk : List String) : Int :=
  hunkContextCount hunk + hunkRemoveCount hunk

/-- `newLines = contextCount + addCount` of the hunk-correction loop. -/
def hunkNewLines (hunk : List String) : Int :=
  hunkContextCount hunk + hunkAddCount hunk

/-- The per-hunk loop of `correctDiffHunks`: locate each hunk with
`matchBlock`, recompute its header numbers, and thread `lineDiffOffset`.
The Go loop appends flat output parts; here each iteration yields the
header record paired with the untouched hunk body, flattened below. -/
def correctHunksAux (sourceLines : List String) :
    List (List String) → Int → Except String (List (HunkHeader × List String))
  | [], _ => .ok []
  | hunk :: rest, lineDiffOffset =>
    if matchBlock sourceLines (getTargetBlock hunk) = -1 then
      .error "could not find matching block for a hunk"
    else
      match correctHunksAux sourceLines rest
          (lineDiffOffset + (hunkNewLines hunk - hunkOldLines hunk)) with
      | .error e => .error e
      | .ok segs =>
        .ok ((⟨matchBlock sourceLines (getTargetBlock hunk), hunkOldLines hunk,
          matchBlock sourceLines (getTargetBlock hunk) + lineDiffOffset,
          hunkNewLines hunk⟩, hunk) :: segs)

/-- The flat output lines of one corrected hunk: fresh header, then the
original body verbatim. -/
def renderHunk (seg : HunkHeader × List String) : List String :=
  buildHunkHeader seg.1.oldStart seg.1.oldLines seg.1.newStart seg.1.newLines :: seg.2

/-- `correctDiffHunks` of `diff-fix.go`, at line level: split the raw diff,
parse hunks, and emit the `--- a/` and `+++ b/` headers followed by every
corrected hunk; an unlocatable hunk fails the whole diff block.  (The Go
function returns the lines joined with a newline after each; see
`correctDiffOutput`.) -/
def correctDiffHunks (sourceLines : List String) (rawDiffContent : String)
    (sourceFilePath : String) : Except String (List String) :=
  if (parseDiffToHunks (goSplitNL rawDiffContent)).isEmpty then .ok []
  else
    match correctHunksAux sourceLines (parseDiffToHunks (goSplitNL rawDiffContent)) 0 with
    | .error e => .error e
    | .ok segs =>
      .ok (("--- a/" ++ sourceFilePath) :: ("+++ b/" ++ sourceFilePath) ::
        (segs.map renderHunk).flatten)

/-- `strings.Join parts ""` where every part carries its trailing newline:
the string the Go `correctDiffHunks` actually returns. -/
def joinLinesNL (parts : List String) : String :=
  String.mk ((parts.map (fun l => l.data ++ ['\n'])).flatten)

/-- `correctDiffHunks` with the Go string result. -/
def correctDiffOutput (sourceLines : List String) (rawDiffContent : String)
    (sourceFilePath : String) : Except String String :=
  (correctDiffHunks sourceLines rawDiffContent sourceFilePath).map joinLinesNL

/-! ## Data model (`model` packages) and the abstract environment -/

/-- `parser.CodeBlock`: one fenced code block with its hint paragraph. -/
structure CodeBlock where
  hint : String
  lang : String
  content : String
deriving DecidableEq, Repr

/-- `model.FileChange`. -/
structure FileChange where
  path : String
  content : List String
  source : String
  rawBlock : String
deriving DecidableEq, Repr

/-- `model.DiffBlock`. -/
structure DiffBlock where
  filePath : String
  rawContent : String
deriving DecidableEq, Repr

/-- The capabilities the parser/patcher core consumes: the path resolver
(`fs.PathResolver`), file reading (`os.ReadFile`, `none` = error), the
external `patch` process of `applyPatch` (`none` = failure), and
`fs.GetFileActionsAndDirs`.  All are outside the pure core and abstracted
as functions. -/
structure Env where
  resolve : String → String
  resolveExisting : String → String
  readFile : String → Option String
  applyPatchRun : String → String → Option (List String)
  fileActionsAndDirs : List String → (List (String × String)) × List String

/-! ## `patcher.go` -/

/-- Worker for `ExtractPathFromDiff`: the multiline regex
`^\+\+\+ b/(?P<path>.*?)(\s|$)` matches the first line starting with
`+++ b/` and captures up to the first `\s`-class character or line end;
the Go caller then trims the capture. -/
def diffPathOfLines : List String → String
  | [] => ""
  | l :: rest =>
    if goStartsWith l "+++ b/" then
      goTrimSpace (String.mk ((l.data.drop 6).takeWhile (fun c => !goIsRegexSpace c)))
    else diffPathOfLines rest

/-- `patcher.ExtractPathFromDiff`. -/
def ExtractPathFromDiff (content : String) : String :=
  diffPathOfLines (goSplitNL content)

/-- `patcher.CorrectDiff`: read the current content of the resolved file
(absent or unreadable means an empty source) and correct the raw diff
against it.  The Go signature also receives the extension list but never
uses it.
The file read of the Go `CorrectDiff` (absent or unreadable file means an
empty source) is `sourceLinesFor`. -/
def sourceLinesFor (env : Env) (filePath : String) : List String :=
  if env.resolveExisting filePath ≠ "" then
    match env.readFile (env.resolveExisting filePath) with
    | some content => goSplitNL content
    | none => []
  else []

/-- Body of `patcher.CorrectDiff` given the current source lines. -/
def CorrectDiff (env : Env) (diff : DiffBlock) : Except String String :=
  correctDiffOutput (sourceLinesFor env diff.filePath) diff.rawContent diff.filePath

/-- `patcher.GeneratePatchedContents`: correct and apply each diff block in
order; extension-filtered blocks are skipped, failures are recorded by
resolved path, successes become `FileChange`s with source `"diff"`. -/
def GeneratePatchedContents (env : Env) :
    List DiffBlock → List String → List FileChange × List String
  | [], _ => ([], [])
  | diff :: rest, extensions =>
    if extensions.length > 0 && !(extensions.contains (goExt diff.filePath)) then
      GeneratePatchedContents env rest extensions
    else
      match CorrectDiff env diff with
      | .error _ =>
        ((GeneratePatchedContents env rest extensions).1,
          env.resolve diff.filePath :: (GeneratePatchedContents env rest extensions).2)
      | .ok patchedContent =>
        match env.applyPatchRun diff.filePath patchedContent with
        | none =>
          ((GeneratePatchedContents env rest extensions).1,
            env.resolve diff.filePath :: (GeneratePatchedContents env rest extensions).2)
        | some appliedContent =>
          (⟨env.resolve diff.filePath, appliedContent, "diff",
            "```diff\n" ++ diff.rawContent ++ "\n```"⟩
              :: (GeneratePatchedContents env rest extensions).1,
            (GeneratePatchedContents env rest extensions).2)

/-! ## `parser.go` -/

/-- The regex `pathInHintRegex`, i.e. ``^`([^`\n]+)` ``: on a string whose
first character is a backtick, capture the maximal nonempty run of
non-backtick, non-newline characters, provided a closing backtick
follows. -/
def hintCapture : List Char → Option (List Char)
  | [] => none
  | c :: rest =>
    if c = '`' then
      if (rest.takeWhile (fun d => d ≠ '`' && d ≠ '\n')).length > 0 ∧
          (rest.drop (rest.takeWhile (fun d => d ≠ '`' && d ≠ '\n')).length).head? = some '`' then
        some (rest.takeWhile (fun d => d ≠ '`' && d ≠ '\n'))
      else none
    else none

/-- The post-processing of a regex capture in `extractPathFromHint`:
trim the capture and reject captures containing a space. -/
def pathFromCapture : Option (List Char) → String
  | some captured =>
    if !goContainsSpace (goTrimSpace (String.mk captured)) then
      goTrimSpace (String.mk captured)
    else ""
  | none => ""

/-- `parser.extractPathFromHint`: trim the hint, match `pathInHintRegex`,
trim the capture, and reject captures containing a space. -/
def extractPathFromHint (hint : String) : String :=
  pathFromCapture (hintCapture (goTrimSpace hint).data)

/-- `parser.hasAllowedExtension`. -/
def hasAllowedExtension (path : String) (extensions : List String) : Bool :=
  if extensions.isEmpty then true
  else extensions.contains (goExt path)

/-- `parser.parseFileBlocks`: non-diff blocks with a well-formed hint path
and an allowed extension become file-block `FileChange`s; the body is
right-trimmed of newlines and split, with the all-empty case mapped to
zero lines. -/
def fileBlockLines (content : String) : List String :=
  if (goSplitNL (goTrimRightNL content)).length = 1 ∧
      (goSplitNL (goTrimRightNL content)).headD "x" = "" then []
  else goSplitNL (goTrimRightNL content)

/-- Body of `parseFileBlocks` (the `fileBlockLines` helper is the Go
`blockContent`/`lines` computation: right-trim newlines, split, map the
all-empty single line to zero lines). -/
def parseFileBlocks (env : Env) : List CodeBlock → List String → List FileChange
  | [], _ => []
  | block :: rest, extensions =>
    if block.lang = "diff" then parseFileBlocks env rest extensions
    else if extractPathFromHint block.hint = "" then parseFileBlocks env rest extensions
    else if hasAllowedExtension (extractPathFromHint block.hint) extensions = false then
      parseFileBlocks env rest extensions
    else
      ⟨env.resolve (extractPathFromHint block.hint), fileBlockLines block.content,
        "codeblock", ""⟩ :: parseFileBlocks env rest extensions

/-- `parser.extractDiffBlocksFromParsed`: diff-language blocks whose
trimmed body yields a `+++ b/` path become `DiffBlock`s; the rest are
silently skipped. -/
def extractDiffBlocksFromParsed : List CodeBlock → List DiffBlock
  | [] => []
  | block :: rest =>
    if block.lang ≠ "diff" then extractDiffBlocksFromParsed rest
    else if ExtractPathFromDiff (goTrimSpace block.content) = "" then
      extractDiffBlocksFromParsed rest
    else ⟨ExtractPathFromDiff (goTrimSpace block.content), goTrimSpace block.content⟩
      :: extractDiffBlocksFromParsed rest

/-- One write into the `finalChanges` map of `CreatePlan`, modelled as an
association list keyed by resolved path (Go map insertion; iteration
order in the model is insertion order, which the claims never rely on). -/
def upsert (m : List (String × FileChange)) (k : String) (v : FileChange) :
    List (String × FileChange) :=
  if m.any (fun p => p.1 = k) then m.map (fun p => if p.1 = k then (k, v) else p)
  else m ++ [(k, v)]

/-- Insert a list of changes into the map, keyed by `path`. -/
def insertChanges (m : List (String × FileChange)) (cs : List FileChange) :
    List (String × FileChange) :=
  cs.foldl (fun acc c => upsert acc c.path c) m

/-- `parser.ExecutionPlan`. -/
structure ExecutionPlan where
  changes : List FileChange
  fileActions : List (String × String)
  dirsToCreate : List String
  failed : List String
deriving DecidableEq, Repr

/-- `parser.CreatePlan` after markdown extraction: the Go function first
obtains `allBlocks` from the goldmark AST walk (`ExtractCodeBlocks`, a
library concern); everything from there on is modelled here.  Diff-only
mode (`extensions = [".diff"]`) skips file blocks and lifts the patcher's
extension filter; diff-derived changes are inserted first and file-block
changes overwrite them per resolved path. -/
def isDiffOnlyMode (extensions : List String) : Bool :=
  extensions.length == 1 && extensions.headD "" == ".diff"

/-- The file blocks of `CreatePlan`: skipped entirely in diff-only mode. -/
def planFileBlocks (env : Env) (allBlocks : List CodeBlock)
    (extensions : List String) : List FileChange :=
  if isDiffOnlyMode extensions then [] else parseFileBlocks env allBlocks extensions

/-- `patcherExtensions` of `CreatePlan`: diff-only mode lifts the filter. -/
def patcherExtensionsOf (extensions : List String) : List String :=
  if isDiffOnlyMode extensions then [] else extensions

/-- The `finalChanges` map of `CreatePlan`: diff-derived changes inserted
first, file-block changes overlaid. -/
def finalChangesOf (env : Env) (allBlocks : List CodeBlock)
    (extensions : List String) : List (String × FileChange) :=
  insertChanges
    (insertChanges []
      (GeneratePatchedContents env (extractDiffBlocksFromParsed allBlocks)
        (patcherExtensionsOf extensions)).1)
    (planFileBlocks env allBlocks extensions)

/-- Body of `parser.CreatePlan` after markdown extraction (see above). -/
def CreatePlanFromBlocks (env : Env) (allBlocks : List CodeBlock)
    (extensions : List String) : ExecutionPlan :=
  ⟨(finalChangesOf env allBlocks extensions).map Prod.snd,
    (env.fileActionsAndDirs
      (((finalChangesOf env allBlocks extensions).map Prod.snd).map FileChange.path)).1,
    (env.fileActionsAndDirs
      (((finalChangesOf env allBlocks extensions).map Prod.snd).map FileChange.path)).2,
    (GeneratePatchedContents env (extractDiffBlocksFromParsed allBlocks)
      (patcherExtensionsOf extensions)).2⟩


/-! ## Decidability helper -/

instance {ε α : Type} [DecidableEq ε] [DecidableEq α] : DecidableEq (Except ε α) := fun a b =>
  match a, b with
  | .ok x, .ok y =>
    if h : x = y then .isTrue (by rw [h])
    else .isFalse (by intro hc; cases hc; exact h rfl)
  | .error x, .error y =>
    if h : x = y then .isTrue (by rw [h])
    else .isFalse (by intro hc; cases hc; exact h rfl)
  | .ok _, .error _ => .isFalse (by intro hc; cases hc)
  | .error _, .ok _ => .isFalse (by intro hc; cases hc)

/-! ## Lemmas about `matchBlock` (claim C10) -/

theorem getD_neg_one_or_mem (nums : List Int) (i : Nat) :
    nums.getD i (-1) = -1 ∨ nums.getD i (-1) ∈ nums := by
  by_cases h : i < nums.length
  · right
    rw [List.getD_eq_getElem?_getD, List.getElem?_eq_getElem h]
    exact List.getElem_mem h
  · left
    rw [List.getD_eq_getElem?_getD, List.getElem?_eq_none (Nat.le_of_not_lt h)]
    rfl

theorem foldl_matchStep_mem (fs nb : List String) (nums : List Int) :
    ∀ (l : List Nat) (init : Score × Int), (init.2 = -1 ∨ init.2 ∈ nums) →
      ((l.foldl (matchStep fs nb nums) init).2 = -1 ∨
        (l.foldl (matchStep fs nb nums) init).2 ∈ nums) := by
  intro l
  induction l with
  | nil => intro init h; exact h
  | cons i rest ih =>
    intro init h
    refine ih (matchStep fs nb nums init i) ?_
    unfold matchStep
    by_cases hb : init.1.blt (windowScore fs nb i) = true
    · simp only [hb, if_true]
      exact getD_neg_one_or_mem nums i
    · simp only [Bool.not_eq_true] at hb
      simp only [hb, if_false]
      exact h

theorem nnbAux_mem : ∀ (src : List String) (off : Int) (p : String × Int),
    p ∈ normalizedNonBlankAux src off →
    ∃ j : Nat, j < src.length ∧ p.2 = off + (j : Int) + 1 ∧
      p.1 = normalizeLineForMatching (src.getD j "") ∧ p.1 ≠ "" := by
  intro src
  induction src with
  | nil => intro off p h; simp [normalizedNonBlankAux] at h
  | cons line rest ih =>
    intro off p h
    unfold normalizedNonBlankAux at h
    by_cases hn : normalizeLineForMatching line ≠ ""
    · simp only [if_pos hn] at h
      rcases List.mem_cons.mp h with h0 | h1
      · exact ⟨0, by simp, by simp [h0], by simp [h0], by simp [h0]; exact hn⟩
      · obtain ⟨j, hj, h2, h3, h4⟩ := ih (off + 1) p h1
        refine ⟨j + 1, by simp only [List.length_cons]; omega, ?_, by simpa using h3, h4⟩
        rw [h2]; push_cast; ring
    · simp only [if_neg hn] at h
      obtain ⟨j, hj, h2, h3, h4⟩ := ih (off + 1) p h
      refine ⟨j + 1, by simp only [List.length_cons]; omega, ?_, by simpa using h3, h4⟩
      rw [h2]; push_cast; ring

/-- C10: `matchBlock` returns `-1` or a 1-based line number `n` with
`1 ≤ n ≤ length source` whose source line is non-blank after whitespace
normalization; an empty target block, or a blank-filtered source shorter
than the block, always yields `-1`. -/
theorem C10_matchBlock_sound (source block : List String) :
    (matchBlock source block = -1 ∨
      ∃ i : Nat, i < source.length ∧ matchBlock source block = (i : Int) + 1 ∧
        normalizeLineForMatching (source.getD i "") ≠ "") ∧
    (block = [] → matchBlock source block = -1) ∧
    ((normalizedNonBlank source).length < block.length → matchBlock source block = -1) := by
  refine ⟨?_, ?_, ?_⟩
  · by_cases hb : block.isEmpty
    · left; simp [matchBlock, hb]
    · by_cases hlen : ((normalizedNonBlank source).map Prod.fst).length <
          (block.map normalizeLineForMatching).length
      · left; rw [matchBlock, if_neg (by simp [hb]), if_pos hlen]
      · by_cases ht : similarityThreshold.ble
            (bestWindow ((normalizedNonBlank source).map Prod.fst)
              (block.map normalizeLineForMatching)
              ((normalizedNonBlank source).map Prod.snd)).1 = true
        · have hval : matchBlock source block =
              (bestWindow ((normalizedNonBlank source).map Prod.fst)
                (block.map normalizeLineForMatching)
                ((normalizedNonBlank source).map Prod.snd)).2 := by
            rw [matchBlock, if_neg (by simp [hb]), if_neg hlen, if_pos ht]
          rcases foldl_matchStep_mem ((normalizedNonBlank source).map Prod.fst)
              (block.map normalizeLineForMatching)
              ((normalizedNonBlank source).map Prod.snd)
              (List.range (((normalizedNonBlank source).map Prod.fst).length -
                (block.map normalizeLineForMatching).length + 1))
              (⟨-1, 1⟩, -1) (Or.inl rfl) with hm | hm
          · left; rw [hval]; exact hm
          · obtain ⟨q, hq, hq2⟩ := List.mem_map.mp hm
            obtain ⟨j, hj, hji, hjn, hjne⟩ := nnbAux_mem source 0 q hq
            right
            refine ⟨j, hj, ?_, ?_⟩
            · rw [hval, bestWindow, ← hq2, hji]; ring
            · rw [← hjn]; exact hjne
        · left
          rw [matchBlock, if_neg (by simp [hb]), if_neg hlen,
            if_neg (by simpa using ht)]
  · intro h; simp [matchBlock, h]
  · intro h
    by_cases hb : block.isEmpty
    · simp [matchBlock, hb]
    · rw [matchBlock, if_neg (by simp [hb]), if_pos (by simpa using h)]

/-- Witness for C10 at concrete inputs. -/
theorem C10_matchBlock_sound_witness :
    matchBlock ["ab"] [] = -1 ∧ matchBlock ["ab"] ["x", "y"] = -1 :=
  ⟨(C10_matchBlock_sound ["ab"] []).2.1 rfl,
   (C10_matchBlock_sound ["ab"] ["x", "y"]).2.2 (by decide)⟩


/-! ## Lemmas about `correctHunksAux` (claims C2, C3) -/

/-- The claim-side cumulative line delta: starts at `0` and accumulates
`newLines - oldLines` over the already-processed hunks. -/
def cumulativeLineDelta : List (List String) → Int
  | [] => 0
  | h :: t => (hunkNewLines h - hunkOldLines h) + cumulativeLineDelta t

/-- The header the claim predicts for one hunk at accumulated delta `d`. -/
def claimHeader (src : List String) (h : List String) (d : Int) : HunkHeader :=
  ⟨matchBlock src (getTargetBlock h), hunkOldLines h,
    matchBlock src (getTargetBlock h) + d, hunkNewLines h⟩

theorem correctHunksAux_ok_eq (src : List String) :
    ∀ (hunks : List (List String)) (d : Int) (segs : List (HunkHeader × List String)),
      correctHunksAux src hunks d = .ok segs →
      segs = (List.range hunks.length).map (fun i =>
        (claimHeader src (hunks.getD i []) (d + cumulativeLineDelta (hunks.take i)),
          hunks.getD i [])) := by
  intro hunks
  induction hunks with
  | nil =>
    intro d segs h
    simp only [correctHunksAux] at h
    cases h
    simp
  | cons hk rest ih =>
    intro d segs h
    unfold correctHunksAux at h
    by_cases hm : matchBlock src (getTargetBlock hk) = -1
    · rw [if_pos hm] at h; cases h
    · rw [if_neg hm] at h
      cases haux : correctHunksAux src rest (d + (hunkNewLines hk - hunkOldLines hk)) with
      | error e => rw [haux] at h; cases h
      | ok segs' =>
        rw [haux] at h
        cases h
        have htail := ih (d + (hunkNewLines hk - hunkOldLines hk)) segs' haux
        rw [htail, List.length_cons, List.range_succ_eq_map, List.map_cons, List.map_map]
        refine List.cons_eq_cons.mpr ⟨?_, ?_⟩
        · simp [claimHeader, cumulativeLineDelta]
        · apply List.map_congr_left
          intro i _
          simp only [Function.comp, List.getD_cons_succ, List.take_succ_cons,
            cumulativeLineDelta]
          rw [add_assoc]

/-- C2 counterexample: in this two-hunk diff, hunk 1's target block is two
lines long and matches at line 1 (so it consumes source lines 1 and 2),
yet hunk 2 is corrected to `oldStart = 1`: the window search for hunk 2
re-visited lines already consumed by hunk 1's match, so the search does
not start one line past the previous hunk's matched end. -/
theorem C2_counterexample :
    correctDiffHunks ["aaa bbb", "ccc ddd", "eee fff", "ggg hhh"]
        "@@ -1,2 +1,2 @@\n aaa bbb\n-ccc ddd\n+ccc xxx\n@@ -1,1 +1,1 @@\n-aaa bbb\n+zzz" "f"
      = .ok ["--- a/f", "+++ b/f", "@@ -1,2 +1,2 @@", " aaa bbb", "-ccc ddd", "+ccc xxx",
          "@@ -1,1 +1,1 @@", "-aaa bbb", "+zzz"] ∧
    getTargetBlock [" aaa bbb", "-ccc ddd", "+ccc xxx"] = ["aaa bbb", "ccc ddd"] ∧
    matchBlock ["aaa bbb", "ccc ddd", "eee fff", "ggg hhh"] ["aaa bbb", "ccc ddd"] = 1 := by
  refine ⟨by decide, by decide, by decide⟩

/-- C2 amended: hunks are corrected in document order, but each hunk's
window search runs over the whole source, independently of where previous
hunks matched: every emitted `oldStart` equals `matchBlock` of the full
source against that hunk's target block (no monotonic search floor, so a
later hunk may match lines already consumed by an earlier hunk, as the
counterexample shows). -/
theorem C2_amended_full_source_search (src : List String) :
    ∀ (hunks : List (List String)) (d : Int) (segs : List (HunkHeader × List String)),
      correctHunksAux src hunks d = .ok segs →
      segs.map (fun sg => sg.1.oldStart)
          = hunks.map (fun h => matchBlock src (getTargetBlock h)) ∧
        segs.map Prod.snd = hunks := by
  intro hunks
  induction hunks with
  | nil =>
    intro d segs h
    simp only [correctHunksAux] at h
    cases h
    simp
  | cons hk rest ih =>
    intro d segs h
    unfold correctHunksAux at h
    by_cases hm : matchBlock src (getTargetBlock hk) = -1
    · rw [if_pos hm] at h; cases h
    · rw [if_neg hm] at h
      cases haux : correctHunksAux src rest (d + (hunkNewLines hk - hunkOldLines hk)) with
      | error e => rw [haux] at h; cases h
      | ok segs' =>
        rw [haux] at h
        cases h
        obtain ⟨h1, h2⟩ := ih (d + (hunkNewLines hk - hunkOldLines hk)) segs' haux
        exact ⟨by simp [h1], by simp [h2]⟩

/-- Witness for the amended C2 theorem at a concrete two-hunk input. -/
theorem C2_amended_witness :
    [(({ oldStart := 1, oldLines := 1, newStart := 1, newLines := 1 } : HunkHeader),
        [" x y"])].map (fun sg => sg.1.oldStart)
        = [[" x y"]].map (fun h => matchBlock ["x y"] (getTargetBlock h)) ∧
      [(({ oldStart := 1, oldLines := 1, newStart := 1, newLines := 1 } : HunkHeader),
        [" x y"])].map Prod.snd = [[" x y"]] :=
  C2_amended_full_source_search ["x y"] [[" x y"]] 0 _ (by decide)

/-- C3: for every successfully located hunk list, the emitted headers are
exactly the claim's formulas: `oldLines` = context-count + removal-count,
`newLines` = context-count + addition-count, `oldStart` the matched line,
and `newStart = oldStart + cumulativeLineDelta` with the delta starting at
0 and accumulating `newLines - oldLines` after each hunk; concretely, a
hunk declared `@@ -1,3 +1,4 @@` that matches at line 10 is emitted as
`@@ -10,3 +10,4 @@`. -/
theorem C3_header_recompute :
    (∀ (src : List String) (hunks : List (List String))
        (segs : List (HunkHeader × List String)),
      correctHunksAux src hunks 0 = .ok segs →
      segs.map Prod.fst = (List.range hunks.length).map (fun i =>
        claimHeader src (hunks.getD i []) (cumulativeLineDelta (hunks.take i)))) ∧
    correctDiffHunks
        ["f1", "f2", "f3", "f4", "f5", "f6", "f7", "f8", "f9", "alpha", "beta", "gamma"]
        "--- a/x\n+++ b/x\n@@ -1,3 +1,4 @@\n alpha\n beta\n+inserted\n gamma" "x"
      = .ok ["--- a/x", "+++ b/x", "@@ -10,3 +10,4 @@", " alpha", " beta", "+inserted",
          " gamma"] := by
  constructor
  · intro src hunks segs h
    rw [correctHunksAux_ok_eq src hunks 0 segs h, List.map_map]
    apply List.map_congr_left
    intro i _
    simp [claimHeader]
  · decide

/-- Witness for the C3 theorem at a concrete input. -/
theorem C3_witness :
    ([(({ oldStart := 1, oldLines := 1, newStart := 1, newLines := 1 } : HunkHeader),
        [" x y"])].map Prod.fst)
      = (List.range [[" x y"]].length).map (fun i =>
          claimHeader ["x y"] ([[" x y"]].getD i [])
            (cumulativeLineDelta ([[" x y"]].take i))) :=
  C3_header_recompute.1 ["x y"] [[" x y"]] _ (by decide)


/-! ## The score bridge to `ℚ` and the `matchBlock` characterization
(claim C1) -/

theorem Score.blt_iff (a b : Score) (ha : 0 < a.den) (hb : 0 < b.den) :
    a.blt b = true ↔ a.toRat < b.toRat := by
  unfold Score.blt Score.toRat
  rw [div_lt_div_iff₀ (by exact_mod_cast ha) (by exact_mod_cast hb)]
  rw [decide_eq_true_eq]
  constructor
  · intro h; exact_mod_cast h
  · intro h; exact_mod_cast h

theorem Score.ble_iff (a b : Score) (ha : 0 < a.den) (hb : 0 < b.den) :
    a.ble b = true ↔ a.toRat ≤ b.toRat := by
  unfold Score.ble Score.toRat
  rw [div_le_div_iff₀ (by exact_mod_cast ha) (by exact_mod_cast hb)]
  rw [decide_eq_true_eq]
  constructor
  · intro h; exact_mod_cast h
  · intro h; exact_mod_cast h

theorem lineSimilarity_den_pos (a b : String) : 0 < (lineSimilarity a b).den := by
  unfold lineSimilarity
  by_cases h : (a.data.length = 0 && b.data.length = 0) = true
  · simp only [h, if_true]; norm_num
  · simp only [h, Bool.false_eq_true, if_false]
    have : 0 < Nat.max a.data.length b.data.length := by
      simp only [Bool.and_eq_true, decide_eq_true_eq] at h
      rcases Nat.eq_zero_or_pos a.data.length with h0 | h0
      · rcases Nat.eq_zero_or_pos b.data.length with h1 | h1
        · exact absurd ⟨by simp [h0], by simp [h1]⟩ h
        · exact lt_of_lt_of_le h1 (Nat.le_max_right _ _)
      · exact lt_of_lt_of_le h0 (Nat.le_max_left _ _)
    exact_mod_cast this

theorem windowTotal_den_pos (w nb : List String) : 0 < (windowTotal w nb).den := by
  unfold windowTotal
  have main : ∀ (l : List (String × String)) (init : Score), 0 < init.den →
      0 < (l.foldl (fun acc p => acc.add (lineSimilarity p.1 p.2)) init).den := by
    intro l
    induction l with
    | nil => intro init h; exact h
    | cons p rest ih =>
      intro init h
      refine ih _ ?_
      exact mul_pos h (lineSimilarity_den_pos p.1 p.2)
  exact main _ _ (by norm_num)

theorem windowScore_den_pos (fs nb : List String) (i : Nat) (h : nb ≠ []) :
    0 < (windowScore fs nb i).den := by
  unfold windowScore Score.divNat
  have h1 : 0 < nb.length := List.length_pos.mpr h
  exact mul_pos (windowTotal_den_pos _ _) (by exact_mod_cast h1)

theorem foldl_max_init_le (l : List ℚ) (a : ℚ) : a ≤ l.foldl max a := by
  induction l generalizing a with
  | nil => exact le_refl a
  | cons x rest ih => exact le_trans (le_max_left a x) (ih (max a x))

theorem foldl_max_mem_le (l : List ℚ) (a : ℚ) : ∀ x ∈ l, x ≤ l.foldl max a := by
  induction l generalizing a with
  | nil => intro x hx; cases hx
  | cons y rest ih =>
    intro x hx
    rcases List.mem_cons.mp hx with h | h
    · subst h
      exact le_trans (le_max_right a x) (foldl_max_init_le rest (max a x))
    · exact ih (max a y) x h

theorem foldl_max_choice (l : List ℚ) (a : ℚ) :
    l.foldl max a = a ∨ l.foldl max a ∈ l := by
  induction l generalizing a with
  | nil => left; rfl
  | cons y rest ih =>
    rcases ih (max a y) with h | h
    · rcases le_total a y with hy | hy
      · right; rw [List.foldl_cons, h, max_eq_right hy]; exact List.mem_cons_self y rest
      · left; rw [List.foldl_cons, h, max_eq_left hy]
    · right; exact List.mem_cons_of_mem y h

theorem foldl_max_append_singleton (l : List ℚ) (a x : ℚ) :
    (l ++ [x]).foldl max a = max (l.foldl max a) x := by
  rw [List.foldl_append]; rfl

/-- The spec-side rational score of the window at filtered index `i`. -/
def windowScoreQ (source block : List String) (i : Nat) : ℚ :=
  (windowScore ((normalizedNonBlank source).map Prod.fst)
    (block.map normalizeLineForMatching) i).toRat

/-- The spec-side list of all window scores. -/
def fuzzyScores (source block : List String) : List ℚ :=
  (List.range (((normalizedNonBlank source).map Prod.fst).length -
    (block.map normalizeLineForMatching).length + 1)).map (windowScoreQ source block)

/-- The spec-side best (maximal) window score, starting from `-1`. -/
def fuzzyBest (source block : List String) : ℚ :=
  (fuzzyScores source block).foldl max (-1)

theorem bestWindow_char (fs nb : List String) (nums : List Int) (hnb : nb ≠ []) :
    ∀ W : Nat,
      0 < ((List.range W).foldl (matchStep fs nb nums) (⟨-1, 1⟩, -1)).1.den ∧
      ((List.range W).foldl (matchStep fs nb nums) (⟨-1, 1⟩, -1)).1.toRat
        = ((List.range W).map (fun i => (windowScore fs nb i).toRat)).foldl max (-1) ∧
      (((-1 : ℚ) < ((List.range W).map (fun i => (windowScore fs nb i).toRat)).foldl max (-1) →
        ((List.range W).foldl (matchStep fs nb nums) (⟨-1, 1⟩, -1)).2
          = nums.getD (List.indexOf
              (((List.range W).map (fun i => (windowScore fs nb i).toRat)).foldl max (-1))
              ((List.range W).map (fun i => (windowScore fs nb i).toRat))) (-1))) ∧
      (¬ ((-1 : ℚ) < ((List.range W).map (fun i => (windowScore fs nb i).toRat)).foldl max (-1)) →
        ((List.range W).foldl (matchStep fs nb nums) (⟨-1, 1⟩, -1)).2 = -1) := by
  intro W
  induction W with
  | zero =>
    refine ⟨by norm_num, by norm_num [Score.toRat], ?_, fun _ => rfl⟩
    intro h
    exact absurd h (by norm_num)
  | succ W ih =>
    obtain ⟨hden, hval, hidx, hneg⟩ := ih
    rw [List.range_succ, List.foldl_append, List.map_append]
    simp only [List.map_cons, List.map_nil, List.foldl_cons, List.foldl_nil]
    rw [foldl_max_append_singleton]
    set R := (List.range W).foldl (matchStep fs nb nums) (⟨-1, 1⟩, -1) with hR
    set S := (List.range W).map (fun i => (windowScore fs nb i).toRat) with hS
    set M := S.foldl max (-1) with hM
    set q := (windowScore fs nb W).toRat with hq
    by_cases hblt : R.1.blt (windowScore fs nb W) = true
    · have hlt : M < q := by
        rw [← hval]
        exact (Score.blt_iff _ _ hden (windowScore_den_pos fs nb W hnb)).mp hblt
      have hstep : matchStep fs nb nums R W = (windowScore fs nb W, nums.getD W (-1)) := by
        unfold matchStep; rw [if_pos hblt]
      rw [hstep]
      have hmax : max M q = q := max_eq_right (le_of_lt hlt)
      have hnotmem : q ∉ S := by
        intro hmem
        exact absurd (foldl_max_mem_le S (-1) q hmem) (not_le.mpr hlt)
      refine ⟨windowScore_den_pos fs nb W hnb, by rw [hmax], ?_, ?_⟩
      · intro _
        rw [hmax, List.indexOf_append_of_not_mem hnotmem]
        simp [List.indexOf_cons, hS]
      · intro hcon
        exfalso
        apply hcon
        rw [hmax]
        exact lt_of_le_of_lt (by norm_num : (-1 : ℚ) ≤ -1)
          (lt_of_le_of_lt (foldl_max_init_le S (-1)) hlt)
    · have hge : q ≤ M := by
        rw [← hval]
        by_contra hcon
        exact hblt ((Score.blt_iff _ _ hden (windowScore_den_pos fs nb W hnb)).mpr
          (by rw [hval] at hcon ⊢; exact not_le.mp (by rw [← hval] at hcon ⊢; exact hcon)))
      have hstep : matchStep fs nb nums R W = R := by
        unfold matchStep; rw [if_neg hblt]
      rw [hstep]
      have hmax : max M q = M := max_eq_left hge
      refine ⟨hden, by rw [hmax, hval], ?_, ?_⟩
      · intro hpos
        rw [hmax]
        rw [hmax] at hpos
        have hmem : M ∈ S := by
          rcases foldl_max_choice S (-1) with h | h
          · rw [← hM] at h
            exact absurd hpos (by rw [h]; norm_num)
          · rw [← hM] at h; exact h
        rw [List.indexOf_append_of_mem hmem]
        exact hidx hpos
      · intro hcon
        rw [hmax] at hcon
        exact hneg hcon

/-- C1 counterexample: the single window of this source differs from the
target block after normalization, yet `matchBlock` accepts it (average
Levenshtein similarity 0.9 ≥ 0.8), so a window can be a match without
every normalized line pair being equal — matching is fuzzy, not exact. -/
theorem C1_counterexample :
    matchBlock ["abcdefghij"] ["abcdefghiX"] = 1 ∧
    normalizeLineForMatching "abcdefghij" ≠ normalizeLineForMatching "abcdefghiX" :=
  ⟨by decide, by decide⟩

/-- C1 amended: diff correction locates a hunk by fuzzy matching.  After
trimming/collapsing whitespace on both sides and filtering blank source
lines, every window is scored by its average per-line Levenshtein
similarity; the first window attaining the maximal score wins provided
that score is at least 0.8, and its starting true 1-based line number is
returned (becoming the corrected `oldStart`); otherwise the hunk fails. -/
theorem C1_amended_fuzzy_match (source block : List String) (h1 : block ≠ [])
    (h2 : block.length ≤ (normalizedNonBlank source).length) :
    matchBlock source block =
      if (8 : ℚ) / 10 ≤ fuzzyBest source block then
        ((normalizedNonBlank source).map Prod.snd).getD
          (List.indexOf (fuzzyBest source block) (fuzzyScores source block)) (-1)
      else -1 := by
  have hne : block.isEmpty = false := by
    cases block with
    | nil => exact absurd rfl h1
    | cons a l => rfl
  have hlen : ¬ (((normalizedNonBlank source).map Prod.fst).length <
      (block.map normalizeLineForMatching).length) := by
    simpa using h2
  obtain ⟨hden, hval, hidx, hneg⟩ := bestWindow_char
    ((normalizedNonBlank source).map Prod.fst) (block.map normalizeLineForMatching)
    ((normalizedNonBlank source).map Prod.snd)
    (by intro hc; apply h1; simpa using hc)
    (((normalizedNonBlank source).map Prod.fst).length -
      (block.map normalizeLineForMatching).length + 1)
  have hS : fuzzyScores source block
      = (List.range (((normalizedNonBlank source).map Prod.fst).length -
          (block.map normalizeLineForMatching).length + 1)).map
          (fun i => (windowScore ((normalizedNonBlank source).map Prod.fst)
            (block.map normalizeLineForMatching) i).toRat) := by
    unfold fuzzyScores windowScoreQ
    rfl
  have hB : fuzzyBest source block
      = ((List.range (((normalizedNonBlank source).map Prod.fst).length -
          (block.map normalizeLineForMatching).length + 1)).map
          (fun i => (windowScore ((normalizedNonBlank source).map Prod.fst)
            (block.map normalizeLineForMatching) i).toRat)).foldl max (-1) := by
    unfold fuzzyBest
    rw [hS]
  by_cases ht : similarityThreshold.ble
      (bestWindow ((normalizedNonBlank source).map Prod.fst)
        (block.map normalizeLineForMatching)
        ((normalizedNonBlank source).map Prod.snd)).1 = true
  · have hthr : (8 : ℚ) / 10 ≤ fuzzyBest source block := by
      have := (Score.ble_iff similarityThreshold _ (by decide) hden).mp ht
      rw [hval] at this
      rw [hB]
      calc (8 : ℚ) / 10 = similarityThreshold.toRat := by
            unfold similarityThreshold Score.toRat; norm_num
        _ ≤ _ := this
    rw [matchBlock, if_neg (by simp [hne]), if_neg hlen, if_pos ht, if_pos hthr]
    unfold bestWindow
    rw [hS, hB]
    apply hidx
    calc (-1 : ℚ) < 8 / 10 := by norm_num
      _ ≤ _ := by rw [← hB]; exact hthr
  · have hthr : ¬ ((8 : ℚ) / 10 ≤ fuzzyBest source block) := by
      intro hcon
      apply ht
      refine (Score.ble_iff similarityThreshold _ (by decide) hden).mpr ?_
      rw [hval]
      calc similarityThreshold.toRat = (8 : ℚ) / 10 := by
            unfold similarityThreshold Score.toRat; norm_num
        _ ≤ _ := by rw [hB] at hcon; exact hcon
    rw [matchBlock, if_neg (by simp [hne]), if_neg hlen, if_neg ht, if_neg hthr]

/-- Witness for the amended C1 theorem at a concrete input (one window of
score 1). -/
theorem C1_amended_witness :
    matchBlock ["ab"] ["ab"] =
      if (8 : ℚ) / 10 ≤ fuzzyBest ["ab"] ["ab"] then
        ((normalizedNonBlank ["ab"]).map Prod.snd).getD
          (List.indexOf (fuzzyBest ["ab"] ["ab"]) (fuzzyScores ["ab"] ["ab"])) (-1)
      else -1 :=
  C1_amended_fuzzy_match ["ab"] ["ab"] (by decide) (by decide)


/-! ## `extractPathFromHint` (claim C9) -/

/-- C9 counterexample: the hint `see \x60a.go\x60` contains a
backtick-delimited span `a.go` with no interior whitespace, yet path
extraction yields empty (the regex is anchored at the start of the
trimmed hint); and a span containing a tab — whitespace by Go's own
`unicode.IsSpace` — is accepted as a path (only the space character is
rejected). -/
theorem C9_counterexample :
    extractPathFromHint "see `a.go`" = "" ∧
    extractPathFromHint "`a\tb`" = "a\tb" ∧ goIsSpace '\t' = true :=
  ⟨by decide, by decide, by decide⟩

/-- C9 amended: path extraction yields a (nonempty) path `p` iff the
whitespace-trimmed hint starts with a backtick, followed by a nonempty
run of non-backtick, non-newline characters that is closed by a backtick,
and the trimmed text of that run is `p` and contains no space character;
any hint not of this shape (in particular one whose backtick span is not
at the start) yields empty. -/
theorem C9_amended_hint_anchor (hint p : String) (hp : p ≠ "") :
    extractPathFromHint hint = p ↔
      ∃ rest : List Char, (goTrimSpace hint).data = '`' :: rest ∧
        rest.takeWhile (fun d => d ≠ '`' && d ≠ '\n') ≠ [] ∧
        (rest.drop (rest.takeWhile (fun d => d ≠ '`' && d ≠ '\n')).length).head?
          = some '`' ∧
        p = goTrimSpace (String.mk (rest.takeWhile (fun d => d ≠ '`' && d ≠ '\n'))) ∧
        goContainsSpace p = false := by
  unfold extractPathFromHint
  cases hl : (goTrimSpace hint).data with
  | nil =>
    simp only [hintCapture, pathFromCapture]
    constructor
    · intro h; exact absurd h.symm hp
    · rintro ⟨rest, h1, -, -, -, -⟩; cases h1
  | cons c rest =>
    by_cases hc : c = '`'
    · subst hc
      simp only [hintCapture]
      by_cases hcond : (rest.takeWhile (fun d => d ≠ '`' && d ≠ '\n')).length > 0 ∧
          (rest.drop (rest.takeWhile (fun d => d ≠ '`' && d ≠ '\n')).length).head?
            = some '`'
      · rw [if_pos trivial, if_pos hcond]
        by_cases hsp : goContainsSpace
            (goTrimSpace (String.mk (rest.takeWhile (fun d => d ≠ '`' && d ≠ '\n')))) = true
        · simp only [pathFromCapture, hsp, Bool.not_true, Bool.false_eq_true, if_false]
          constructor
          · intro h; exact absurd h.symm hp
          · rintro ⟨rest', h1, -, -, h4, h5⟩
            have hr : rest' = rest := by injection h1 with he ht; exact ht.symm
            subst hr
            rw [h4] at h5
            rw [h5] at hsp
            cases hsp
        · simp only [Bool.not_eq_true] at hsp
          simp only [pathFromCapture, hsp, Bool.not_false, if_true]
          constructor
          · intro h
            refine ⟨rest, rfl, ?_, hcond.2, h.symm, by rw [← h]; exact hsp⟩
            intro hnil
            rw [hnil] at hcond
            exact absurd hcond.1 (by simp)
          · rintro ⟨rest', h1, -, -, h4, -⟩
            have hr : rest' = rest := by injection h1 with he ht; exact ht.symm
            subst hr
            exact h4.symm
      · rw [if_pos trivial, if_neg hcond]
        simp only [pathFromCapture]
        constructor
        · intro h; exact absurd h.symm hp
        · rintro ⟨rest', h1, h2, h3, -, -⟩
          have hr : rest' = rest := by injection h1 with he ht; exact ht.symm
          subst hr
          exact (hcond ⟨List.length_pos.mpr h2, h3⟩).elim
    · simp only [hintCapture]
      rw [if_neg hc]
      simp only [pathFromCapture]
      constructor
      · intro h; exact absurd h.symm hp
      · rintro ⟨rest', h1, -, -, -, -⟩
        injection h1 with hch _
        exact (hc hch).elim

/-- Witness for the amended C9 theorem at a concrete hint. -/
theorem C9_amended_witness :
    ("a.go" : String) ≠ "" ∧
    (extractPathFromHint "`a.go` means the file" = "a.go" ↔
      ∃ rest : List Char, (goTrimSpace "`a.go` means the file").data = '`' :: rest ∧
        rest.takeWhile (fun d => d ≠ '`' && d ≠ '\n') ≠ [] ∧
        (rest.drop (rest.takeWhile (fun d => d ≠ '`' && d ≠ '\n')).length).head?
          = some '`' ∧
        ("a.go" : String)
          = goTrimSpace (String.mk (rest.takeWhile (fun d => d ≠ '`' && d ≠ '\n'))) ∧
        goContainsSpace "a.go" = false) :=
  ⟨by decide, C9_amended_hint_anchor "`a.go` means the file" "a.go" (by decide)⟩


/-! ## File-block content splitting (claim C8) -/

/-- Drop trailing blank lines from a split body. -/
def dropTrailingBlank (ls : List String) : List String :=
  (ls.reverse.dropWhile (fun l => l == "")).reverse

/-- The claim-side description of a file block's content: the body split
on line breaks with the trailing blank lines collapsed (an all-empty
block yields zero content lines). -/
def specSplitContent (c : String) : List String :=
  dropTrailingBlank (goSplitNL c)

/-- Char-level companion of `dropTrailingBlank`. -/
def dropTrailingEmptyC (ls : List (List Char)) : List (List Char) :=
  (ls.reverse.dropWhile (fun x => x.isEmpty)).reverse

theorem splitNLChars_cons_nl (l : List Char) :
    splitNLChars ('\n' :: l) = [] :: splitNLChars l := rfl

theorem splitNLChars_cons_ne (c : Char) (l : List Char) (hc : c ≠ '\n')
    (b : List Char) (u : List (List Char)) (h : splitNLChars l = b :: u) :
    splitNLChars (c :: l) = (c :: b) :: u := by
  unfold splitNLChars
  rw [if_neg hc, h]

theorem splitNLChars_ne_nil : ∀ l : List Char, splitNLChars l ≠ [] := by
  intro l
  induction l with
  | nil => simp [splitNLChars]
  | cons c rest ih =>
    by_cases hc : c = '\n'
    · subst hc; rw [splitNLChars_cons_nl]; simp
    · cases h : splitNLChars rest with
      | nil => exact absurd h ih
      | cons a t => rw [splitNLChars_cons_ne c rest hc a t h]; simp

theorem splitNLChars_append_newline (l : List Char) :
    splitNLChars (l ++ ['\n']) = splitNLChars l ++ [[]] := by
  induction l with
  | nil => simp [splitNLChars]
  | cons c rest ih =>
    by_cases hc : c = '\n'
    · subst hc
      rw [List.cons_append, splitNLChars_cons_nl, splitNLChars_cons_nl, ih]
      rfl
    · cases hr : splitNLChars rest with
      | nil => exact absurd hr (splitNLChars_ne_nil rest)
      | cons b u =>
        rw [List.cons_append,
          splitNLChars_cons_ne c (rest ++ ['\n']) hc b (u ++ [[]])
            (by rw [ih, hr]; rfl),
          splitNLChars_cons_ne c rest hc b u hr]
        rfl

theorem splitNLChars_append_last (l : List Char) (c : Char) (hc : c ≠ '\n') :
    ∃ ys y, splitNLChars (l ++ [c]) = ys ++ [y ++ [c]] := by
  induction l with
  | nil =>
    refine ⟨[], [], ?_⟩
    rw [List.nil_append]
    rw [splitNLChars_cons_ne c [] hc [] [] rfl]
    rfl
  | cons d rest ih =>
    obtain ⟨ys, y, hy⟩ := ih
    by_cases hd : d = '\n'
    · subst hd
      refine ⟨[] :: ys, y, ?_⟩
      rw [List.cons_append, splitNLChars_cons_nl, hy]
      rfl
    · cases ys with
      | nil =>
        refine ⟨[], d :: y, ?_⟩
        rw [List.cons_append,
          splitNLChars_cons_ne d (rest ++ [c]) hd (y ++ [c]) [] (by rw [hy]; rfl)]
        rfl
      | cons h t =>
        refine ⟨(d :: h) :: t, y, ?_⟩
        rw [List.cons_append,
          splitNLChars_cons_ne d (rest ++ [c]) hd h (t ++ [y ++ [c]]) (by rw [hy]; rfl)]
        rfl

theorem splitNLChars_eq_single_iff (l : List Char) : splitNLChars l = [[]] ↔ l = [] := by
  constructor
  · intro h
    cases l with
    | nil => rfl
    | cons c rest =>
      by_cases hc : c = '\n'
      · subst hc
        rw [splitNLChars_cons_nl] at h
        injection h with h1 h2
        exact absurd h2 (splitNLChars_ne_nil rest)
      · cases hr : splitNLChars rest with
        | nil => exact absurd hr (splitNLChars_ne_nil rest)
        | cons a t =>
          rw [splitNLChars_cons_ne c rest hc a t hr] at h
          injection h with h1 h2
          cases h1
  · intro h; subst h; rfl

theorem dtbC_append_empty (xs : List (List Char)) :
    dropTrailingEmptyC (xs ++ [[]]) = dropTrailingEmptyC xs := by
  unfold dropTrailingEmptyC
  rw [List.reverse_append]
  have h0 : (([[]] : List (List Char)).reverse ++ xs.reverse)
      = [] :: xs.reverse := rfl
  rw [h0, List.dropWhile_cons]
  simp

theorem dtbC_last_nonempty (ys : List (List Char)) (y : List Char) (c : Char) :
    dropTrailingEmptyC (ys ++ [y ++ [c]]) = ys ++ [y ++ [c]] := by
  unfold dropTrailingEmptyC
  rw [List.reverse_append]
  have h0 : (([y ++ [c]] : List (List Char)).reverse ++ ys.reverse)
      = (y ++ [c]) :: ys.reverse := rfl
  have h1 : (y ++ [c]).isEmpty = false := by cases y <;> rfl
  rw [h0, List.dropWhile_cons, h1]
  simp

theorem dtbC_splitNLChars (l : List Char) :
    dropTrailingEmptyC (splitNLChars l)
      = if (l.reverse.dropWhile (fun d => d = '\n')).reverse = [] then []
        else splitNLChars ((l.reverse.dropWhile (fun d => d = '\n')).reverse) := by
  induction l using List.reverseRecOn with
  | nil => decide
  | append_singleton l c ih =>
    by_cases hc : c = '\n'
    · subst hc
      rw [splitNLChars_append_newline, dtbC_append_empty, ih]
      have hrt : ((l ++ ['\n']).reverse.dropWhile (fun d => d = '\n')).reverse
          = (l.reverse.dropWhile (fun d => d = '\n')).reverse := by
        rw [List.reverse_append]
        have h0 : ((['\n'] : List Char).reverse ++ l.reverse) = '\n' :: l.reverse := rfl
        rw [h0, List.dropWhile_cons]
        simp
      rw [hrt]
    · obtain ⟨ys, y, hy⟩ := splitNLChars_append_last l c hc
      have hrt : ((l ++ [c]).reverse.dropWhile (fun d => d = '\n')).reverse = l ++ [c] := by
        rw [List.reverse_append]
        have h0 : (([c] : List Char).reverse ++ l.reverse) = c :: l.reverse := rfl
        rw [h0, List.dropWhile_cons]
        simp [hc]
      rw [hy, dtbC_last_nonempty, hrt, if_neg (by simp), ← hy]

theorem mk_beq_empty (x : List Char) : (String.mk x == "") = x.isEmpty := by
  cases x with
  | nil => rfl
  | cons c cs => rfl

theorem specSplitContent_eq (content : String) :
    specSplitContent content
      = (dropTrailingEmptyC (splitNLChars content.data)).map String.mk := by
  unfold specSplitContent dropTrailingBlank goSplitNL dropTrailingEmptyC
  rw [← List.map_reverse, List.dropWhile_map, ← List.map_reverse]
  have hp : ((fun s => s == "") ∘ String.mk) = (fun x : List Char => x.isEmpty) := by
    funext x
    simp only [Function.comp]
    exact mk_beq_empty x
  rw [hp]

theorem map_mk_eq_single_iff (xs : List (List Char)) :
    xs.map String.mk = [""] ↔ xs = [[]] := by
  constructor
  · intro h
    cases xs with
    | nil => cases h
    | cons a t =>
      simp only [List.map_cons, List.cons_eq_cons] at h
      obtain ⟨h1, h2⟩ := h
      have ha : a = [] := by
        have hmk : String.mk a = String.mk [] := h1
        injection hmk
      rw [ha, List.map_eq_nil_iff.mp h2]
  · intro h; rw [h]; rfl

theorem goSplitNL_eq_single_iff (t : String) : goSplitNL t = [""] ↔ t = "" := by
  unfold goSplitNL
  rw [map_mk_eq_single_iff, splitNLChars_eq_single_iff]
  constructor
  · intro h
    cases t with
    | mk d => rw [show d = [] from h]
  · intro h; rw [h]


theorem headD_single_iff (ls : List String) :
    (ls.length = 1 ∧ ls.headD "x" = "") ↔ ls = [""] := by
  cases ls with
  | nil => simp
  | cons a t =>
    cases t with
    | nil => simp [List.headD]
    | cons b u => simp [List.length_cons]

theorem fileBlockLines_eq_spec (content : String) :
    fileBlockLines content = specSplitContent content := by
  unfold fileBlockLines
  have hdata : (content.data.reverse.dropWhile (fun d => d = '\n')).reverse
      = (goTrimRightNL content).data := rfl
  by_cases ht : goTrimRightNL content = ""
  · have h1 : goSplitNL (goTrimRightNL content) = [""] := by rw [ht]; rfl
    rw [if_pos (by rw [h1]; exact ⟨rfl, rfl⟩)]
    rw [specSplitContent_eq, dtbC_splitNLChars, hdata]
    rw [if_pos (by rw [ht])]
    rfl
  · have h1 : ¬ (goSplitNL (goTrimRightNL content) = [""]) := fun hcon =>
      ht ((goSplitNL_eq_single_iff _).mp hcon)
    rw [if_neg (fun hcon => h1 ((headD_single_iff _).mp hcon))]
    rw [specSplitContent_eq, dtbC_splitNLChars, hdata]
    have h2 : ¬ ((goTrimRightNL content).data = []) := by
      intro hcon
      apply ht
      cases hgt : goTrimRightNL content with
      | mk d => rw [hgt] at hcon; rw [show d = [] from hcon]
    rw [if_neg h2]
    rfl

/-- C8: a well-formed file block with backtick-quoted hint path `p` and
body `C` yields exactly one `FileChange`, whose path is the resolution of
`p` and whose content is `C` split on line breaks with trailing blank
lines collapsed (an all-empty body gives zero content lines). -/
theorem C8_file_block_content (env : Env) (hint lang content p : String)
    (exts : List String) (h1 : lang ≠ "diff") (h2 : extractPathFromHint hint = p)
    (h3 : p ≠ "") (h4 : hasAllowedExtension p exts = true)
    (h5 : isDiffOnlyMode exts = false) :
    (CreatePlanFromBlocks env [⟨hint, lang, content⟩] exts).changes
      = [⟨env.resolve p, specSplitContent content, "codeblock", ""⟩] := by
  have hfb : parseFileBlocks env [⟨hint, lang, content⟩] exts
      = [⟨env.resolve p, fileBlockLines content, "codeblock", ""⟩] := by
    unfold parseFileBlocks
    rw [if_neg h1]
    rw [show (⟨hint, lang, content⟩ : CodeBlock).hint = hint from rfl, h2]
    rw [if_neg h3, if_neg (by rw [h4]; simp)]
    rfl
  have hdb : extractDiffBlocksFromParsed [⟨hint, lang, content⟩] = [] := by
    unfold extractDiffBlocksFromParsed
    rw [if_pos h1]
    rfl
  show ((finalChangesOf env [⟨hint, lang, content⟩] exts).map Prod.snd) = _
  unfold finalChangesOf planFileBlocks
  rw [hdb, if_neg (by rw [h5]; simp), hfb]
  show ((insertChanges (insertChanges [] ([], ([] : List String)).1)
    [⟨env.resolve p, fileBlockLines content, "codeblock", ""⟩]).map Prod.snd) = _
  rw [fileBlockLines_eq_spec]
  rfl

/-- A concrete environment for witnesses: prefix-resolution, no existing
files, no readable files, failing patch runs. -/
def sampleEnv : Env :=
  ⟨fun pth => "/r/" ++ pth, fun _ => "", fun _ => none, fun _ _ => none,
    fun paths => (paths.map (fun pth => (pth, "create")), [])⟩

/-! ## Failure propagation in `GeneratePatchedContents` (claim C4) -/

theorem GPC_cons (env : Env) (d : DiffBlock) (rest : List DiffBlock)
    (exts : List String) :
    GeneratePatchedContents env (d :: rest) exts
      = if exts.length > 0 && !(exts.contains (goExt d.filePath)) then
          GeneratePatchedContents env rest exts
        else match CorrectDiff env d with
          | .error _ => ((GeneratePatchedContents env rest exts).1,
              env.resolve d.filePath :: (GeneratePatchedContents env rest exts).2)
          | .ok pc => match env.applyPatchRun d.filePath pc with
            | none => ((GeneratePatchedContents env rest exts).1,
                env.resolve d.filePath :: (GeneratePatchedContents env rest exts).2)
            | some ac => (⟨env.resolve d.filePath, ac, "diff",
                "```diff\n" ++ d.rawContent ++ "\n```"⟩
                  :: (GeneratePatchedContents env rest exts).1,
                (GeneratePatchedContents env rest exts).2) := rfl

theorem GPC_append (env : Env) (exts : List String) :
    ∀ xs ys : List DiffBlock,
      GeneratePatchedContents env (xs ++ ys) exts
        = ((GeneratePatchedContents env xs exts).1
            ++ (GeneratePatchedContents env ys exts).1,
          (GeneratePatchedContents env xs exts).2
            ++ (GeneratePatchedContents env ys exts).2) := by
  intro xs
  induction xs with
  | nil => intro ys; simp [GeneratePatchedContents]
  | cons d rest ih =>
    intro ys
    rw [List.cons_append, GPC_cons, GPC_cons]
    by_cases hg : (exts.length > 0 && !(exts.contains (goExt d.filePath))) = true
    · rw [if_pos hg, if_pos hg, ih]
    · rw [if_neg hg, if_neg hg]
      cases hc : CorrectDiff env d with
      | error e => simp [ih]
      | ok pc =>
        cases ha : env.applyPatchRun d.filePath pc with
        | none => simp [ha, ih]
        | some ac => simp [ha, ih]

theorem correctHunksAux_error_of_mem (src : List String) :
    ∀ (hunks : List (List String)) (d : Int),
      (∃ hunk ∈ hunks, matchBlock src (getTargetBlock hunk) = -1) →
      ∃ msg, correctHunksAux src hunks d = .error msg := by
  intro hunks
  induction hunks with
  | nil =>
    intro d h
    obtain ⟨hunk, hmem, -⟩ := h
    cases hmem
  | cons hk rest ih =>
    intro d h
    unfold correctHunksAux
    by_cases hm : matchBlock src (getTargetBlock hk) = -1
    · exact ⟨_, by rw [if_pos hm]⟩
    · rw [if_neg hm]
      obtain ⟨hunk, hmem, hmb⟩ := h
      rcases List.mem_cons.mp hmem with heq | hmem'
      · exact absurd (heq ▸ hmb) hm
      · obtain ⟨msg, hmsg⟩ := ih (d + (hunkNewLines hk - hunkOldLines hk)) ⟨hunk, hmem', hmb⟩
        rw [hmsg]
        exact ⟨msg, rfl⟩

/-- C4: (1) when a diff block passes the extension filter but its
correction fails, `GeneratePatchedContents` emits no change for it (no
partial corrected diff), records its resolved path in the failed list in
position, and processes the surrounding diff blocks exactly as it would
without it; (2) a hunk whose target block is empty (e.g. a pure-addition
hunk) always makes `correctDiffHunks` fail for the whole diff block;
(3) the failed list of the plan is exactly the failed list of
`GeneratePatchedContents`. -/
theorem C4_failed_diff_recorded :
    (∀ (env : Env) (pre post : List DiffBlock) (d : DiffBlock)
        (exts : List String) (e : String),
      (exts.length > 0 && !(exts.contains (goExt d.filePath))) = false →
      CorrectDiff env d = .error e →
      GeneratePatchedContents env (pre ++ d :: post) exts
        = ((GeneratePatchedContents env pre exts).1
            ++ (GeneratePatchedContents env post exts).1,
          (GeneratePatchedContents env pre exts).2
            ++ env.resolve d.filePath :: (GeneratePatchedContents env post exts).2)) ∧
    (∀ (src : List String) (raw pathStr : String),
      (∃ hunk ∈ parseDiffToHunks (goSplitNL raw), getTargetBlock hunk = []) →
      ∃ msg, correctDiffHunks src raw pathStr = .error msg) ∧
    (∀ (env : Env) (blocks : List CodeBlock) (exts : List String),
      (CreatePlanFromBlocks env blocks exts).failed
        = (GeneratePatchedContents env (extractDiffBlocksFromParsed blocks)
            (patcherExtensionsOf exts)).2) := by
  refine ⟨?_, ?_, ?_⟩
  · intro env pre post d exts e hext herr
    rw [GPC_append env exts pre (d :: post), GPC_cons,
      if_neg (by rw [hext]; simp), herr]
  · intro src raw pathStr h
    obtain ⟨hunk, hmem, htgt⟩ := h
    have hne : (parseDiffToHunks (goSplitNL raw)).isEmpty = false := by
      cases hp : parseDiffToHunks (goSplitNL raw) with
      | nil => rw [hp] at hmem; cases hmem
      | cons a t => rfl
    have hmb : matchBlock src (getTargetBlock hunk) = -1 := by
      rw [htgt]; rfl
    obtain ⟨msg, hmsg⟩ := correctHunksAux_error_of_mem src
      (parseDiffToHunks (goSplitNL raw)) 0 ⟨hunk, hmem, hmb⟩
    refine ⟨msg, ?_⟩
    unfold correctDiffHunks
    rw [if_neg (by rw [hne]; simp), hmsg]
  · intro env blocks exts
    rfl

/-- Witness for the C4 theorem: a diff block whose only hunk cannot be
located (empty current file) fails, is recorded by resolved path, and a
pure-addition hunk fails correction. -/
theorem C4_witness :
    GeneratePatchedContents sampleEnv
        ([] ++ ⟨"b.py", "--- a/b.py\n+++ b/b.py\n@@ -1 +1 @@\n x"⟩ :: []) []
      = ((GeneratePatchedContents sampleEnv [] []).1
          ++ (GeneratePatchedContents sampleEnv [] []).1,
        (GeneratePatchedContents sampleEnv [] []).2
          ++ sampleEnv.resolve "b.py" :: (GeneratePatchedContents sampleEnv [] []).2) ∧
    (∃ msg, correctDiffHunks [] "@@ -1 +1 @@\n+only addition" "f" = .error msg) := by
  constructor
  · have herr : CorrectDiff sampleEnv ⟨"b.py", "--- a/b.py\n+++ b/b.py\n@@ -1 +1 @@\n x"⟩
        = .error "could not find matching block for a hunk" := by decide
    exact C4_failed_diff_recorded.1 sampleEnv [] []
      ⟨"b.py", "--- a/b.py\n+++ b/b.py\n@@ -1 +1 @@\n x"⟩ []
      "could not find matching block for a hunk" (by decide) herr
  · exact C4_failed_diff_recorded.2.1 [] "@@ -1 +1 @@\n+only addition" "f"
      ⟨["+only addition"], by decide, by decide⟩

/-- Witness for the C8 theorem at a concrete file block. -/
theorem C8_witness :
    (CreatePlanFromBlocks sampleEnv [⟨"`a.py`", "python", "x=1\n"⟩] []).changes
      = [⟨sampleEnv.resolve "a.py", specSplitContent "x=1\n", "codeblock", ""⟩] :=
  C8_file_block_content sampleEnv "`a.py`" "python" "x=1\n" "a.py" []
    (by decide) (by decide) (by decide) (by decide) (by decide)


/-! ## The `finalChanges` map (claim C5) -/

/-- Lookup in the association-list model of the Go map. -/
def alookup (m : List (String × FileChange)) (k : String) : Option FileChange :=
  (m.find? (fun pr => pr.1 == k)).map Prod.snd

theorem alookup_cons_pos (q : String × FileChange) (t : List (String × FileChange))
    (k : String) (h : q.1 = k) : alookup (q :: t) k = some q.2 := by
  unfold alookup
  rw [List.find?_cons_of_pos _ (by simp [h])]
  rfl

theorem alookup_cons_neg (q : String × FileChange) (t : List (String × FileChange))
    (k : String) (h : ¬ q.1 = k) : alookup (q :: t) k = alookup t k := by
  unfold alookup
  rw [List.find?_cons_of_neg _ (by simp [h])]

theorem alookup_replace_same (k : String) (v : FileChange) :
    ∀ t : List (String × FileChange),
      alookup (t.map (fun p => if p.1 = k then (k, v) else p)) k
        = if t.any (fun p => p.1 = k) then some v else none := by
  intro t
  induction t with
  | nil => rfl
  | cons q t ih =>
    rw [List.map_cons]
    by_cases hq : q.1 = k
    · rw [if_pos hq, alookup_cons_pos _ _ _ rfl]
      rw [List.any_cons]
      simp [hq]
    · rw [if_neg hq, alookup_cons_neg _ _ _ hq, ih, List.any_cons]
      have hd : decide (q.1 = k) = false := by simp [hq]
      rw [hd, Bool.false_or]

theorem alookup_replace_other (k k' : String) (v : FileChange) (hne : k' ≠ k) :
    ∀ t : List (String × FileChange),
      alookup (t.map (fun p => if p.1 = k then (k, v) else p)) k'
        = alookup t k' := by
  intro t
  induction t with
  | nil => rfl
  | cons q t ih =>
    rw [List.map_cons]
    by_cases hq : q.1 = k
    · rw [if_pos hq, alookup_cons_neg _ _ _ (fun h => hne h.symm),
        alookup_cons_neg _ _ _ (by rw [hq]; exact fun h => hne h.symm), ih]
    · by_cases hq' : q.1 = k'
      · rw [if_neg hq, alookup_cons_pos _ _ _ hq', alookup_cons_pos _ _ _ hq']
      · rw [if_neg hq, alookup_cons_neg _ _ _ hq', alookup_cons_neg _ _ _ hq', ih]

theorem alookup_append_single_same (m : List (String × FileChange)) (k : String)
    (v : FileChange) (h : ∀ p ∈ m, ¬ p.1 = k) :
    alookup (m ++ [(k, v)]) k = some v := by
  unfold alookup
  rw [List.find?_append]
  have h1 : m.find? (fun pr => pr.1 == k) = none :=
    List.find?_eq_none.mpr (fun x hx => by simp [h x hx])
  rw [h1, List.find?_cons_of_pos _ (by simp)]
  rfl

theorem alookup_append_single_other (m : List (String × FileChange)) (k k' : String)
    (v : FileChange) (hne : k' ≠ k) :
    alookup (m ++ [(k, v)]) k' = alookup m k' := by
  unfold alookup
  rw [List.find?_append]
  have h2 : List.find? (fun pr => pr.1 == k') [(k, v)] = none := by
    rw [List.find?_cons_of_neg _ (by simp; exact fun h => hne h.symm)]
    rfl
  rw [h2]
  cases hm : List.find? (fun pr => pr.1 == k') m with
  | none => rfl
  | some q => rfl

theorem alookup_upsert_same (m : List (String × FileChange)) (k : String)
    (v : FileChange) : alookup (upsert m k v) k = some v := by
  unfold upsert
  by_cases hany : m.any (fun p => p.1 = k) = true
  · rw [if_pos hany, alookup_replace_same k v m, if_pos hany]
  · rw [if_neg hany]
    apply alookup_append_single_same
    intro p hp hk
    exact hany (List.any_eq_true.mpr ⟨p, hp, by simp [hk]⟩)

theorem alookup_upsert_other (m : List (String × FileChange)) (k k' : String)
    (v : FileChange) (hne : k' ≠ k) :
    alookup (upsert m k v) k' = alookup m k' := by
  unfold upsert
  by_cases hany : m.any (fun p => p.1 = k) = true
  · rw [if_pos hany]
    exact alookup_replace_other k k' v hne m
  · rw [if_neg hany]
    exact alookup_append_single_other m k k' v hne

theorem alookup_insertChanges (q : String) :
    ∀ (cs : List FileChange) (m : List (String × FileChange)),
      alookup (insertChanges m cs) q
        = match (cs.filter (fun c => c.path = q)).getLast? with
          | some c => some c
          | none => alookup m q := by
  intro cs
  induction cs with
  | nil => intro m; rfl
  | cons c t ih =>
    intro m
    show alookup (insertChanges (upsert m c.path c) t) q = _
    rw [ih (upsert m c.path c)]
    by_cases hq : c.path = q
    · rw [List.filter_cons_of_pos (by simp [hq])]
      cases hlast : (t.filter (fun c => c.path = q)).getLast? with
      | some d =>
        rw [List.getLast?_cons, hlast]
        rfl
      | none =>
        rw [List.getLast?_cons, hlast]
        show alookup (upsert m c.path c) q = some c
        rw [← hq]
        exact alookup_upsert_same m c.path c
    · rw [List.filter_cons_of_neg (by simp [hq]),
        alookup_upsert_other m c.path q c (fun h => hq h.symm)]

theorem upsert_keys (m : List (String × FileChange)) (k : String) (v : FileChange) :
    (upsert m k v).map Prod.fst
      = if m.any (fun p => p.1 = k) then m.map Prod.fst
        else m.map Prod.fst ++ [k] := by
  unfold upsert
  by_cases hany : m.any (fun p => p.1 = k) = true
  · rw [if_pos hany, if_pos hany, List.map_map]
    apply List.map_congr_left
    intro p _
    by_cases hp : p.1 = k
    · simp [Function.comp, hp]
    · simp [Function.comp, hp]
  · rw [if_neg hany, if_neg hany, List.map_append]
    rfl

theorem upsert_keys_nodup (m : List (String × FileChange)) (k : String)
    (v : FileChange) (h : (m.map Prod.fst).Nodup) :
    ((upsert m k v).map Prod.fst).Nodup := by
  rw [upsert_keys]
  by_cases hany : m.any (fun p => p.1 = k) = true
  · rw [if_pos hany]; exact h
  · rw [if_neg hany, List.nodup_append]
    refine ⟨h, List.nodup_singleton k, ?_⟩
    intro a ha hb
    simp only [List.mem_singleton] at hb
    subst hb
    obtain ⟨p, hp, hpk⟩ := List.mem_map.mp ha
    exact hany (List.any_eq_true.mpr ⟨p, hp, by simp [hpk]⟩)

theorem insertChanges_keys_nodup : ∀ (cs : List FileChange)
    (m : List (String × FileChange)), (m.map Prod.fst).Nodup →
    ((insertChanges m cs).map Prod.fst).Nodup := by
  intro cs
  induction cs with
  | nil => intro m h; exact h
  | cons c t ih => intro m h; exact ih _ (upsert_keys_nodup m c.path c h)

theorem upsert_keyIsPath (m : List (String × FileChange)) (k : String)
    (v : FileChange) (hm : ∀ pr ∈ m, pr.1 = pr.2.path) (hkv : k = v.path) :
    ∀ pr ∈ upsert m k v, pr.1 = pr.2.path := by
  intro pr hpr
  unfold upsert at hpr
  by_cases hany : m.any (fun p => p.1 = k) = true
  · rw [if_pos hany] at hpr
    obtain ⟨p, hp, hpe⟩ := List.mem_map.mp hpr
    by_cases hpk : p.1 = k
    · rw [if_pos hpk] at hpe; rw [← hpe]; exact hkv
    · rw [if_neg hpk] at hpe; rw [← hpe]; exact hm p hp
  · rw [if_neg hany] at hpr
    rcases List.mem_append.mp hpr with h | h
    · exact hm pr h
    · simp only [List.mem_singleton] at h
      rw [h]
      exact hkv

theorem insertChanges_keyIsPath : ∀ (cs : List FileChange)
    (m : List (String × FileChange)), (∀ pr ∈ m, pr.1 = pr.2.path) →
    ∀ pr ∈ insertChanges m cs, pr.1 = pr.2.path := by
  intro cs
  induction cs with
  | nil => intro m h; exact h
  | cons c t ih => intro m h; exact ih _ (upsert_keyIsPath m c.path c h rfl)

theorem alookup_of_mem_nodup : ∀ (m : List (String × FileChange)) (k : String)
    (v : FileChange), ((m.map Prod.fst).Nodup) → (k, v) ∈ m →
    alookup m k = some v := by
  intro m
  induction m with
  | nil => intro k v _ h; cases h
  | cons q t ih =>
    intro k v hnd hmem
    rcases List.mem_cons.mp hmem with h | h
    · cases h.symm
      exact alookup_cons_pos _ _ _ rfl
    · have hk : k ∈ t.map Prod.fst := List.mem_map.mpr ⟨(k, v), h, rfl⟩
      rw [List.map_cons] at hnd
      have hq : ¬ q.1 = k := fun he => (List.nodup_cons.mp hnd).1 (he ▸ hk)
      rw [alookup_cons_neg _ _ _ hq]
      exact ih k v (List.nodup_cons.mp hnd).2 h

theorem filter_path_len : ∀ (m : List (String × FileChange)) (q : String),
    ((m.map Prod.fst).Nodup) → (∀ pr ∈ m, pr.1 = pr.2.path) →
    ((m.map Prod.snd).filter (fun c => c.path = q)).length ≤ 1 := by
  intro m
  induction m with
  | nil => intro q _ _; simp
  | cons p t ih =>
    intro q hnd hkp
    rw [List.map_cons] at hnd ⊢
    by_cases hq : p.2.path = q
    · rw [List.filter_cons_of_pos (by simp [hq])]
      have hnil : (t.map Prod.snd).filter (fun c => c.path = q) = [] := by
        rw [List.filter_eq_nil_iff]
        intro c hc
        obtain ⟨pr, hpr, hpe⟩ := List.mem_map.mp hc
        simp only [decide_eq_true_eq]
        intro hcq
        apply (List.nodup_cons.mp hnd).1
        have h1 : pr.1 = q := by
          rw [hkp pr (List.mem_cons_of_mem p hpr), hpe]
          exact hcq
        have h2 : p.1 = q := by
          rw [hkp p (List.mem_cons_self p t)]
          exact hq
        rw [h2, ← h1]
        exact List.mem_map.mpr ⟨pr, hpr, rfl⟩
      rw [hnil]
      simp
    · rw [List.filter_cons_of_neg (by simp [hq])]
      exact ih q (List.nodup_cons.mp hnd).2
        (fun pr hpr => hkp pr (List.mem_cons_of_mem p hpr))

/-- C5: at most one `FileChange` per resolved path survives into the final
plan, and whenever a file block targets a path, the plan's (unique) change
at that path is that file block's change — file blocks win over
diff-derived changes regardless of document order. -/
theorem C5_one_change_per_path (env : Env) (blocks : List CodeBlock)
    (exts : List String) :
    (∀ q, (((CreatePlanFromBlocks env blocks exts).changes).filter
        (fun c => c.path = q)).length ≤ 1) ∧
    (∀ q fb, ((planFileBlocks env blocks exts).filter
        (fun c => c.path = q)).getLast? = some fb →
      fb ∈ (CreatePlanFromBlocks env blocks exts).changes ∧
        ∀ c ∈ (CreatePlanFromBlocks env blocks exts).changes, c.path = q → c = fb) := by
  have hnd : ((finalChangesOf env blocks exts).map Prod.fst).Nodup :=
    insertChanges_keys_nodup _ _ (insertChanges_keys_nodup _ _ (by simp))
  have hkp : ∀ pr ∈ finalChangesOf env blocks exts, pr.1 = pr.2.path :=
    insertChanges_keyIsPath _ _
      (insertChanges_keyIsPath _ _ (by intro pr hpr; cases hpr))
  constructor
  · intro q
    exact filter_path_len _ q hnd hkp
  · intro q fb hlast
    have hfb : alookup (finalChangesOf env blocks exts) q = some fb := by
      unfold finalChangesOf
      rw [alookup_insertChanges q (planFileBlocks env blocks exts) _, hlast]
    obtain ⟨pr, hfind⟩ : ∃ pr, (finalChangesOf env blocks exts).find?
        (fun pr => pr.1 == q) = some pr := by
      unfold alookup at hfb
      cases hf : (finalChangesOf env blocks exts).find? (fun pr => pr.1 == q) with
      | none => rw [hf] at hfb; cases hfb
      | some pr => exact ⟨pr, rfl⟩
    have hprq : pr.1 = q := by
      have := List.find?_some hfind
      simpa using this
    have hprfb : pr.2 = fb := by
      unfold alookup at hfb
      rw [hfind] at hfb
      simpa using hfb
    have hprmem : pr ∈ finalChangesOf env blocks exts :=
      List.mem_of_find?_eq_some hfind
    constructor
    · show fb ∈ (finalChangesOf env blocks exts).map Prod.snd
      exact List.mem_map.mpr ⟨pr, hprmem, hprfb⟩
    · intro c hc hcq
      obtain ⟨pr', hpr', hpe'⟩ := List.mem_map.mp hc
      have h1 : pr'.1 = q := by
        rw [hkp pr' hpr', hpe']
        exact hcq
      have h2 : alookup (finalChangesOf env blocks exts) q = some pr'.2 := by
        rw [← h1]
        exact alookup_of_mem_nodup _ pr'.1 pr'.2 hnd hpr'
      rw [hfb] at h2
      rw [← hpe']
      exact (Option.some.inj h2).symm

/-- Witness for the C5 theorem at a concrete input. -/
theorem C5_witness :
    (⟨"/r/a.py", ["x=1"], "codeblock", ""⟩ : FileChange)
        ∈ (CreatePlanFromBlocks sampleEnv [⟨"`a.py`", "python", "x=1\n"⟩] []).changes ∧
      ∀ c ∈ (CreatePlanFromBlocks sampleEnv [⟨"`a.py`", "python", "x=1\n"⟩] []).changes,
        c.path = "/r/a.py" → c = ⟨"/r/a.py", ["x=1"], "codeblock", ""⟩ :=
  (C5_one_change_per_path sampleEnv [⟨"`a.py`", "python", "x=1\n"⟩] []).2 "/r/a.py"
    ⟨"/r/a.py", ["x=1"], "codeblock", ""⟩ (by decide)


/-! ## Diff-only mode (claim C6) -/

theorem parseFileBlocks_all_diff (env : Env) (exts : List String) :
    ∀ bs : List CodeBlock, (∀ b ∈ bs, b.lang = "diff") →
      parseFileBlocks env bs exts = [] := by
  intro bs
  induction bs with
  | nil => intro _; rfl
  | cons b t ih =>
    intro h
    unfold parseFileBlocks
    rw [if_pos (h b (List.mem_cons_self b t))]
    exact ih (fun x hx => h x (List.mem_cons_of_mem b hx))

theorem extract_cons_diff (b : CodeBlock) (t : List CodeBlock) (hb : b.lang = "diff") :
    extractDiffBlocksFromParsed (b :: t)
      = if ExtractPathFromDiff (goTrimSpace b.content) = "" then
          extractDiffBlocksFromParsed t
        else ⟨ExtractPathFromDiff (goTrimSpace b.content), goTrimSpace b.content⟩
          :: extractDiffBlocksFromParsed t := by
  conv_lhs => rw [extractDiffBlocksFromParsed]
  rw [if_neg (fun hc => hc hb)]

theorem extract_cons_nondiff (b : CodeBlock) (t : List CodeBlock)
    (hb : ¬ b.lang = "diff") :
    extractDiffBlocksFromParsed (b :: t) = extractDiffBlocksFromParsed t := by
  conv_lhs => rw [extractDiffBlocksFromParsed]
  rw [if_pos hb]

theorem extractDiff_filter (blocks : List CodeBlock) :
    extractDiffBlocksFromParsed (blocks.filter (fun b => b.lang == "diff"))
      = extractDiffBlocksFromParsed blocks := by
  induction blocks with
  | nil => rfl
  | cons b t ih =>
    by_cases hb : b.lang = "diff"
    · rw [List.filter_cons_of_pos (by simp [hb]),
        extract_cons_diff b _ hb, extract_cons_diff b t hb, ih]
    · rw [List.filter_cons_of_neg (by simp [hb]),
        extract_cons_nondiff b t hb]
      exact ih

theorem GPC_changes_source (env : Env) (exts : List String) :
    ∀ ds : List DiffBlock, ∀ c ∈ (GeneratePatchedContents env ds exts).1,
      c.source = "diff" := by
  intro ds
  induction ds with
  | nil => intro c hc; cases hc
  | cons d t ih =>
    intro c hc
    rw [GPC_cons] at hc
    split at hc
    · exact ih c hc
    · split at hc
      · exact ih c hc
      · split at hc
        · exact ih c hc
        · rcases List.mem_cons.mp hc with h | h
          · rw [h]
          · exact ih c h

theorem mem_upsert (m : List (String × FileChange)) (k : String) (v : FileChange)
    (pr : String × FileChange) (h : pr ∈ upsert m k v) :
    pr = (k, v) ∨ pr ∈ m := by
  unfold upsert at h
  by_cases hany : m.any (fun p => p.1 = k) = true
  · rw [if_pos hany] at h
    obtain ⟨p, hp, hpe⟩ := List.mem_map.mp h
    by_cases hpk : p.1 = k
    · rw [if_pos hpk] at hpe; left; exact hpe.symm
    · rw [if_neg hpk] at hpe; right; exact hpe ▸ hp
  · rw [if_neg hany] at h
    rcases List.mem_append.mp h with h1 | h1
    · right; exact h1
    · left; simpa using h1

theorem mem_insertChanges : ∀ (cs : List FileChange)
    (m : List (String × FileChange)) (pr : String × FileChange),
    pr ∈ insertChanges m cs → pr.2 ∈ cs ∨ pr ∈ m := by
  intro cs
  induction cs with
  | nil => intro m pr h; right; exact h
  | cons c t ih =>
    intro m pr h
    rcases ih (upsert m c.path c) pr h with h1 | h1
    · left; exact List.mem_cons_of_mem c h1
    · rcases mem_upsert m c.path c pr h1 with h2 | h2
      · left; rw [h2]; exact List.mem_cons_self c t
      · right; exact h2

/-- C6: with the extension filter exactly `[".diff"]`, the plan equals the
plan built from only the diff blocks with no extension filter at all —
file blocks are skipped entirely (a `.go` file block is excluded) and diff
blocks bypass extension filtering (a diff targeting a `.py` file is still
processed); consequently every change in a diff-only plan is
diff-derived. -/
theorem C6_diff_only_mode (env : Env) (blocks : List CodeBlock) :
    CreatePlanFromBlocks env blocks [".diff"]
        = CreatePlanFromBlocks env (blocks.filter (fun b => b.lang == "diff")) [] ∧
      ∀ c ∈ (CreatePlanFromBlocks env blocks [".diff"]).changes, c.source = "diff" := by
  have hm : isDiffOnlyMode [".diff"] = true := by decide
  have h0 : isDiffOnlyMode ([] : List String) = false := by decide
  have h1 : planFileBlocks env blocks [".diff"] = [] := by
    unfold planFileBlocks
    rw [if_pos hm]
  have h2 : planFileBlocks env (blocks.filter (fun b => b.lang == "diff")) [] = [] := by
    unfold planFileBlocks
    rw [if_neg (by rw [h0]; simp)]
    apply parseFileBlocks_all_diff
    intro b hb
    simpa using (List.mem_filter.mp hb).2
  have h3 : patcherExtensionsOf [".diff"] = [] := by
    unfold patcherExtensionsOf
    rw [if_pos hm]
  have h4 : patcherExtensionsOf ([] : List String) = [] := by
    unfold patcherExtensionsOf
    rw [if_neg (by rw [h0]; simp)]
  constructor
  · unfold CreatePlanFromBlocks finalChangesOf
    rw [h1, h2, h3, h4, extractDiff_filter]
  · intro c hc
    have hc' : c ∈ (finalChangesOf env blocks [".diff"]).map Prod.snd := hc
    obtain ⟨pr, hpr, hpe⟩ := List.mem_map.mp hc'
    unfold finalChangesOf at hpr
    rw [h1] at hpr
    have hpr2 : pr ∈ insertChanges []
        (GeneratePatchedContents env (extractDiffBlocksFromParsed blocks)
          (patcherExtensionsOf [".diff"])).1 := hpr
    rcases mem_insertChanges _ _ _ hpr2 with h | h
    · rw [← hpe]
      exact GPC_changes_source env (patcherExtensionsOf [".diff"]) _ pr.2 h
    · cases h

/-- An environment whose reads and patch runs succeed, for the C6 witness. -/
def sampleEnv2 : Env :=
  ⟨fun pth => "/r/" ++ pth, fun pth => "/r/" ++ pth, fun _ => some "line one\n",
    fun _ _ => some ["patched line"],
    fun paths => (paths.map (fun pth => (pth, "modify")), [])⟩

/-- Witness for the C6 theorem: a successfully patched `.py` diff block in
diff-only mode yields a change with source `"diff"`. -/
theorem C6_witness :
    (⟨"/r/b.py", ["patched line"], "diff",
        "```diff\n--- a/b.py\n+++ b/b.py\n@@ -9 +9 @@\n-line one\n+line two\n```"⟩
      : FileChange).source = "diff" :=
  (C6_diff_only_mode sampleEnv2
      [⟨"", "diff", "--- a/b.py\n+++ b/b.py\n@@ -9 +9 @@\n-line one\n+line two"⟩]).2
    ⟨"/r/b.py", ["patched line"], "diff",
      "```diff\n--- a/b.py\n+++ b/b.py\n@@ -9 +9 @@\n-line one\n+line two\n```"⟩
    (by decide)


/-! ## Idempotence of diff correction (claim C7) -/

theorem digitChar_no_nl : ∀ n : Nat, Nat.digitChar n ≠ '\n'
  | 0 => by decide
  | 1 => by decide
  | 2 => by decide
  | 3 => by decide
  | 4 => by decide
  | 5 => by decide
  | 6 => by decide
  | 7 => by decide
  | 8 => by decide
  | 9 => by decide
  | 10 => by decide
  | 11 => by decide
  | 12 => by decide
  | 13 => by decide
  | 14 => by decide
  | 15 => by decide
  | (n + 16) => by exact (by decide : ('*' : Char) ≠ '\n')

theorem toDigitsCore_no_nl (b : Nat) : ∀ (fuel n : Nat) (acc : List Char),
    (∀ c ∈ acc, c ≠ '\n') → ∀ c ∈ Nat.toDigitsCore b fuel n acc, c ≠ '\n' := by
  intro fuel
  induction fuel with
  | zero => intro n acc hacc c hc; exact hacc c hc
  | succ f ih =>
    intro n acc hacc c hc
    rw [Nat.toDigitsCore] at hc
    split at hc
    · rcases List.mem_cons.mp hc with h | h
      · rw [h]; exact digitChar_no_nl _
      · exact hacc c h
    · refine ih (n / b) (Nat.digitChar (n % b) :: acc) ?_ c hc
      intro d hd
      rcases List.mem_cons.mp hd with h | h
      · rw [h]; exact digitChar_no_nl _
      · exact hacc d h

theorem natRepr_no_nl (n : Nat) : '\n' ∉ (Nat.repr n).data := by
  intro hc
  exact toDigitsCore_no_nl 10 (n + 1) n [] (by intro d hd; cases hd) '\n' hc rfl

theorem intRepr_no_nl (i : Int) : '\n' ∉ (Int.repr i).data := by
  intro hc
  cases i with
  | ofNat m => exact natRepr_no_nl m hc
  | negSucc m =>
    have h : ('\n' : Char) ∈ ("-" ++ Nat.repr (m + 1)).data := hc
    rw [String.data_append] at h
    rcases List.mem_append.mp h with h1 | h1
    · exact absurd h1 (by decide)
    · exact natRepr_no_nl (m + 1) h1

theorem header_no_nl (a b c d : Int) : '\n' ∉ (buildHunkHeader a b c d).data := by
  intro hc
  unfold buildHunkHeader at hc
  simp only [String.data_append, List.mem_append] at hc
  rcases hc with ((((((((h | h) | h) | h) | h) | h) | h) | h) | h)
  · exact absurd h (by decide)
  · exact intRepr_no_nl a h
  · exact absurd h (by decide)
  · exact intRepr_no_nl b h
  · exact absurd h (by decide)
  · exact intRepr_no_nl c h
  · exact absurd h (by decide)
  · exact intRepr_no_nl d h
  · exact absurd h (by decide)

theorem splitNLChars_no_nl : ∀ (l : List Char) (x : List Char),
    x ∈ splitNLChars l → '\n' ∉ x := by
  intro l
  induction l with
  | nil =>
    intro x hx
    rcases List.mem_singleton.mp hx with rfl
    intro h
    cases h
  | cons c rest ih =>
    intro x hx
    by_cases hc : c = '\n'
    · subst hc
      rw [splitNLChars_cons_nl] at hx
      rcases List.mem_cons.mp hx with rfl | hx'
      · intro h; cases h
      · exact ih x hx'
    · cases hr : splitNLChars rest with
      | nil => exact absurd hr (splitNLChars_ne_nil rest)
      | cons b u =>
        rw [splitNLChars_cons_ne c rest hc b u hr] at hx
        rcases List.mem_cons.mp hx with rfl | hx'
        · intro h
          rcases List.mem_cons.mp h with h1 | h1
          · exact hc h1.symm
          · exact ih b (hr ▸ List.mem_cons_self b u) h1
        · exact ih x (hr ▸ List.mem_cons_of_mem b hx')

theorem goSplitNL_no_nl (s : String) : ∀ line ∈ goSplitNL s, '\n' ∉ line.data := by
  intro line hline
  obtain ⟨x, hx, rfl⟩ := List.mem_map.mp hline
  exact splitNLChars_no_nl s.data x hx

theorem splitNLChars_append_nonl (x : List Char) (hx : '\n' ∉ x) :
    ∀ (m : List Char) (h : List Char) (t : List (List Char)),
      splitNLChars m = h :: t → splitNLChars (x ++ m) = (x ++ h) :: t := by
  induction x with
  | nil => intro m h t hm; simpa using hm
  | cons c x ih =>
    intro m h t hm
    have hc : c ≠ '\n' := fun he => hx (he ▸ List.mem_cons_self c x)
    have hx' : '\n' ∉ x := fun he => hx (List.mem_cons_of_mem c he)
    rw [List.cons_append,
      splitNLChars_cons_ne c (x ++ m) hc (x ++ h) t (ih hx' m h t hm)]
    rfl

theorem splitNLChars_flatten : ∀ ls : List (List Char), (∀ x ∈ ls, '\n' ∉ x) →
    splitNLChars ((ls.map (fun l => l ++ ['\n'])).flatten) = ls ++ [[]] := by
  intro ls
  induction ls with
  | nil => intro _; rfl
  | cons x ls ih =>
    intro h
    rw [List.map_cons, List.flatten_cons, List.append_assoc]
    rw [show (['\n'] : List Char) ++ (ls.map (fun l => l ++ ['\n'])).flatten
      = '\n' :: (ls.map (fun l => l ++ ['\n'])).flatten from rfl]
    rw [splitNLChars_append_nonl x (h x (List.mem_cons_self x ls)) _ []
      (splitNLChars ((ls.map (fun l => l ++ ['\n'])).flatten))
      (splitNLChars_cons_nl _)]
    rw [ih (fun y hy => h y (List.mem_cons_of_mem x hy))]
    simp

theorem goSplitNL_joinLinesNL (parts : List String)
    (h : ∀ l ∈ parts, '\n' ∉ l.data) :
    goSplitNL (joinLinesNL parts) = parts ++ [""] := by
  unfold goSplitNL joinLinesNL
  rw [show (String.mk ((parts.map (fun l => l.data ++ ['\n'])).flatten)).data
    = (parts.map (fun l => l.data ++ ['\n'])).flatten from rfl]
  rw [show parts.map (fun l => l.data ++ ['\n'])
    = (parts.map String.data).map (fun x => x ++ ['\n']) by rw [List.map_map]; rfl]
  rw [splitNLChars_flatten _ (by
    intro x hx
    obtain ⟨l, hl, rfl⟩ := List.mem_map.mp hx
    exact h l hl)]
  rw [List.map_append, List.map_map]
  congr 1
  conv_rhs => rw [← List.map_id parts]
  apply List.map_congr_left
  intro a _
  rfl


theorem startsWith_file_old (q : String) : goStartsWith ("--- a/" ++ q) "---" = true := by
  simp [goStartsWith, String.data_append]

theorem startsWith_file_new (q : String) : goStartsWith ("+++ b/" ++ q) "+++" = true := by
  simp [goStartsWith, String.data_append]

theorem header_data (a b c d : Int) :
    (buildHunkHeader a b c d).data
      = '@' :: '@' :: ' ' :: '-' :: ((Int.repr a).data ++ (",".data
        ++ ((Int.repr b).data ++ (" +".data ++ ((Int.repr c).data
        ++ (",".data ++ ((Int.repr d).data ++ " @@".data))))))) := by
  unfold buildHunkHeader
  simp only [String.data_append, List.append_assoc]
  rfl

theorem header_starts_at (a b c d : Int) :
    goStartsWith (buildHunkHeader a b c d) "@@" = true := by
  unfold goStartsWith
  rw [header_data]
  show List.isPrefixOf ('@' :: '@' :: []) _ = true
  simp [List.isPrefixOf]

theorem header_not_old (a b c d : Int) :
    goStartsWith (buildHunkHeader a b c d) "---" = false := by
  unfold goStartsWith
  rw [header_data]
  show List.isPrefixOf ('-' :: '-' :: '-' :: []) _ = false
  simp [List.isPrefixOf]

theorem header_not_new (a b c d : Int) :
    goStartsWith (buildHunkHeader a b c d) "+++" = false := by
  unfold goStartsWith
  rw [header_data]
  show List.isPrefixOf ('+' :: '+' :: '+' :: []) _ = false
  simp [List.isPrefixOf]

/-- A line that `parseDiffToHunks` collects into a hunk body. -/
def collectible (l : String) : Prop :=
  (goStartsWith l "+" || goStartsWith l "-" || goStartsWith l " ") = true ∧
  (goStartsWith l "---" || goStartsWith l "+++") = false ∧
  goStartsWith l "@@" = false

theorem parseHunksAux_nil (current : List String) :
    parseHunksAux [] current = if current.isEmpty then [] else [current] := by
  conv_lhs => rw [parseHunksAux]

theorem parseHunksAux_cons (line : String) (rest current : List String) :
    parseHunksAux (line :: rest) current
      = if goStartsWith line "---" || goStartsWith line "+++" then
          parseHunksAux rest current
        else if goStartsWith line "@@" then
          (if current.isEmpty then parseHunksAux rest []
            else current :: parseHunksAux rest [])
        else if goStartsWith line "+" || goStartsWith line "-" ||
            goStartsWith line " " then
          parseHunksAux rest (current ++ [line])
        else parseHunksAux rest current := by
  conv_lhs => rw [parseHunksAux]

theorem parseHunksAux_wf (P : String → Prop) :
    ∀ (lines current : List String),
      (∀ l ∈ lines, P l) → (∀ l ∈ current, P l ∧ collectible l) →
      ∀ h ∈ parseHunksAux lines current, h ≠ [] ∧ ∀ l ∈ h, P l ∧ collectible l := by
  intro lines
  induction lines with
  | nil =>
    intro current hl hc h hh
    rw [parseHunksAux_nil] at hh
    by_cases he : current.isEmpty
    · rw [if_pos he] at hh; cases hh
    · rw [if_neg he] at hh
      rcases List.mem_singleton.mp hh with rfl
      exact ⟨fun hnil => he (by rw [hnil]; rfl), hc⟩
  | cons line rest ih =>
    intro current hl hc h hh
    have hltail : ∀ l ∈ rest, P l := fun l hl' => hl l (List.mem_cons_of_mem _ hl')
    rw [parseHunksAux_cons] at hh
    split at hh
    · exact ih current hltail hc h hh
    · split at hh
      · split at hh
        · exact ih [] hltail (by intro l hl'; cases hl') h hh
        next he =>
          rcases List.mem_cons.mp hh with rfl | hh'
          · exact ⟨fun hnil => he (by rw [hnil]; rfl), hc⟩
          · exact ih [] hltail (by intro l hl'; cases hl') h hh'
      next h1 h2 =>
        split at hh
        next h3 =>
          refine ih (current ++ [line]) hltail ?_ h hh
          intro l hl'
          rcases List.mem_append.mp hl' with hcur | hsing
          · exact hc l hcur
          · rcases List.mem_singleton.mp hsing with rfl
            refine ⟨hl l (List.mem_cons_self l rest), h3, ?_, ?_⟩
            · simpa using h1
            · simpa using h2
        next h4 => exact ih current hltail hc h hh

theorem parseHunksAux_run :
    ∀ (body : List String), (∀ l ∈ body, collectible l) →
      ∀ (rest current : List String),
        parseHunksAux (body ++ rest) current = parseHunksAux rest (current ++ body) := by
  intro body
  induction body with
  | nil => intro _ rest current; simp
  | cons l b ih =>
    intro hb rest current
    have hcol := hb l (List.mem_cons_self l b)
    rw [List.cons_append, parseHunksAux_cons,
      if_neg (by rw [hcol.2.1]; simp),
      if_neg (by rw [hcol.2.2]; simp),
      if_pos hcol.1,
      ih (fun x hx => hb x (List.mem_cons_of_mem l hx)) rest (current ++ [l]),
      List.append_assoc]
    rfl

theorem parseHunksAux_render (segs : List (HunkHeader × List String))
    (hprop : ∀ sg ∈ segs, sg.2 ≠ [] ∧ ∀ l ∈ sg.2, collectible l) :
    ∀ current : List String,
      parseHunksAux ((segs.map renderHunk).flatten ++ [""]) current
        = (if current.isEmpty then [] else [current]) ++ segs.map Prod.snd := by
  induction segs with
  | nil =>
    intro current
    show parseHunksAux ([""]) current = _
    rw [parseHunksAux_cons, if_neg (by decide), if_neg (by decide),
      if_neg (by decide), parseHunksAux_nil]
    simp
  | cons sg segs ih =>
    intro current
    rw [List.map_cons, List.flatten_cons]
    rw [show renderHunk sg ++ ((segs.map renderHunk).flatten) ++ [""]
      = buildHunkHeader sg.1.oldStart sg.1.oldLines sg.1.newStart sg.1.newLines
        :: (sg.2 ++ ((segs.map renderHunk).flatten ++ [""])) by
      unfold renderHunk
      rw [List.cons_append, List.cons_append, List.append_assoc]]
    rw [parseHunksAux_cons,
      if_neg (by rw [header_not_old, header_not_new]; simp),
      if_pos (header_starts_at _ _ _ _),
      parseHunksAux_run sg.2 (hprop sg (List.mem_cons_self sg segs)).2
        ((segs.map renderHunk).flatten ++ [""]) []]
    rw [show ([] : List String) ++ sg.2 = sg.2 from rfl]
    rw [ih (fun x hx => hprop x (List.mem_cons_of_mem sg hx)) sg.2]
    have hne : sg.2.isEmpty = false := by
      cases hsg : sg.2 with
      | nil => exact absurd hsg (hprop sg (List.mem_cons_self sg segs)).1
      | cons a t => rfl
    rw [hne]
    by_cases hcur : current.isEmpty
    · rw [if_pos hcur]
      have hcn : current = [] := by simpa using hcur
      rw [hcn]
      simp
    · rw [if_neg hcur]
      have hcn : ¬ (current = []) := by simpa using hcur
      simp [hcn]

theorem correctHunksAux_snd (src : List String) :
    ∀ (hunks : List (List String)) (d : Int) (segs : List (HunkHeader × List String)),
      correctHunksAux src hunks d = .ok segs → segs.map Prod.snd = hunks := by
  intro hunks
  induction hunks with
  | nil =>
    intro d segs h
    cases h
    rfl
  | cons hk rest ih =>
    intro d segs h
    unfold correctHunksAux at h
    by_cases hm : matchBlock src (getTargetBlock hk) = -1
    · rw [if_pos hm] at h; cases h
    · rw [if_neg hm] at h
      cases haux : correctHunksAux src rest (d + (hunkNewLines hk - hunkOldLines hk)) with
      | error e => rw [haux] at h; cases h
      | ok segs' =>
        rw [haux] at h
        cases h
        rw [List.map_cons, ih _ segs' haux]


/-- C7: correcting an already-correct diff is idempotent — re-correcting
the output of `correctDiffHunks` (whose headers describe the true match
locations) against the same source reproduces it verbatim, so all header
numbers are identical.  The path hypothesis (no newline inside the file
path) always holds for paths extracted from `+++ b/` lines. -/
theorem C7_correct_idempotent (src : List String) (raw p : String)
    (out : List String) (hp : '\n' ∉ p.data)
    (hok : correctDiffHunks src raw p = .ok out) :
    correctDiffHunks src (joinLinesNL out) p = .ok out := by
  unfold correctDiffHunks at hok
  by_cases hempty : (parseDiffToHunks (goSplitNL raw)).isEmpty = true
  · rw [if_pos hempty] at hok
    have hout : out = [] := by cases hok; rfl
    subst hout
    unfold correctDiffHunks
    rw [show goSplitNL (joinLinesNL []) = [""] from rfl]
    rw [if_pos (by decide)]
  · rw [if_neg hempty] at hok
    cases haux : correctHunksAux src (parseDiffToHunks (goSplitNL raw)) 0 with
    | error e => rw [haux] at hok; cases hok
    | ok segs =>
      rw [haux] at hok
      have hout : out
          = ("--- a/" ++ p) :: ("+++ b/" ++ p) :: (segs.map renderHunk).flatten := by
        cases hok; rfl
      have hsnd : segs.map Prod.snd = parseDiffToHunks (goSplitNL raw) :=
        correctHunksAux_snd src _ 0 segs haux
      have hhunks : ∀ h ∈ parseDiffToHunks (goSplitNL raw),
          h ≠ [] ∧ ∀ l ∈ h, ('\n' ∉ l.data) ∧ collectible l := by
        intro h hh
        exact parseHunksAux_wf (fun l => '\n' ∉ l.data) (goSplitNL raw) []
          (goSplitNL_no_nl raw) (by intro l hl; cases hl) h hh
      have hsegs : ∀ sg ∈ segs, sg.2 ≠ [] ∧ ∀ l ∈ sg.2, collectible l := by
        intro sg hsg
        have hmem : sg.2 ∈ parseDiffToHunks (goSplitNL raw) := by
          rw [← hsnd]
          exact List.mem_map.mpr ⟨sg, hsg, rfl⟩
        exact ⟨(hhunks _ hmem).1, fun l hl => ((hhunks _ hmem).2 l hl).2⟩
      have hnl : ∀ l ∈ out, '\n' ∉ l.data := by
        rw [hout]
        intro l hl
        rcases List.mem_cons.mp hl with rfl | hl1
        · rw [String.data_append]
          intro hmem
          rcases List.mem_append.mp hmem with h1 | h1
          · exact absurd h1 (by decide)
          · exact hp h1
        rcases List.mem_cons.mp hl1 with rfl | hl2
        · rw [String.data_append]
          intro hmem
          rcases List.mem_append.mp hmem with h1 | h1
          · exact absurd h1 (by decide)
          · exact hp h1
        · obtain ⟨piece, hpiece, hlp⟩ := List.mem_flatten.mp hl2
          obtain ⟨sg, hsg, rfl⟩ := List.mem_map.mp hpiece
          unfold renderHunk at hlp
          rcases List.mem_cons.mp hlp with rfl | hlb
          · exact header_no_nl _ _ _ _
          · have hmem : sg.2 ∈ parseDiffToHunks (goSplitNL raw) := by
              rw [← hsnd]
              exact List.mem_map.mpr ⟨sg, hsg, rfl⟩
            exact ((hhunks _ hmem).2 l hlb).1
      have hsplit : goSplitNL (joinLinesNL out) = out ++ [""] :=
        goSplitNL_joinLinesNL out hnl
      have hreparse : parseDiffToHunks (out ++ [""])
          = parseDiffToHunks (goSplitNL raw) := by
        rw [hout]
        unfold parseDiffToHunks
        rw [List.cons_append, List.cons_append]
        rw [parseHunksAux_cons, if_pos (by rw [startsWith_file_old p]; simp)]
        rw [parseHunksAux_cons, if_pos (by rw [startsWith_file_new p]; simp)]
        rw [parseHunksAux_render segs hsegs []]
        simpa using hsnd
      show correctDiffHunks src (joinLinesNL out) p = .ok out
      unfold correctDiffHunks
      rw [hsplit, hreparse, if_neg hempty, haux, hout]

/-- Witness for the C7 theorem at a concrete diff. -/
theorem C7_witness :
    correctDiffHunks ["line one"]
        (joinLinesNL ["--- a/f", "+++ b/f", "@@ -1,1 +1,1 @@", "-line one",
          "+line two"]) "f"
      = .ok ["--- a/f", "+++ b/f", "@@ -1,1 +1,1 @@", "-line one", "+line two"] :=
  C7_correct_idempotent ["line one"]
    "--- a/f\n+++ b/f\n@@ -5 +5 @@\n-line one\n+line two" "f"
    ["--- a/f", "+++ b/f", "@@ -1,1 +1,1 @@", "-line one", "+line two"]
    (by decide) (by decide)

end Itf

example : Itf.levenshteinDistance "abcdefghij".data "abcdefghiX".data = 1 := by decide

example : Itf.matchBlock ["abcdefghij"] ["abcdefghiX"] = 1 := by decide

example : Itf.matchBlock ["abcdefghij"] ["XXXXXXXXXX"] = -1 := by decide

example : Itf.matchBlock ["aaa   bbb"] ["  aaa bbb "] = 1 := by decide

example : Itf.matchBlock ["", "x y"] ["x   y"] = 2 := by decide
